import Mathlib

/-!
Verification of the Simple-PDF-Scraper core against its specification.

The Python sources are shallowly embedded here:

* strings are `List Char`; the Python string operations used by the code
  (`split`, `split('\n')`, `split(':')`, `strip`, `lower`, `find`, `in`)
  are re-implemented over `List Char` with Python semantics (ASCII case
  folding and ASCII digits; the repository only handles ASCII keywords);
* Python `int` values are `Int`, geometry coordinates (floats used only
  for exact arithmetic on small decimals) are modelled as `ℚ`;
* fallible Python code (list indexing, missing attributes, `ValueError`)
  returns `Except PyErr`; code that cannot raise stays total.

Embedded modules:
* `simple_pdf_scraper/extractors/pattern_extractor.py` (PatternExtractor)
* `simple_pdf_scraper/cli.py` (parse_pattern)
* `simple_pdf_scraper/processors/pdfplumber_processor.py` (line grouping,
  spacing profile, center-distance filtering)
-/

/-- Python exception kinds raised (or raisable) by the embedded code. -/
inductive PyErr where
  | valueError
  | indexError
  | attributeError
deriving DecidableEq, Repr

deriving instance DecidableEq for Except

/-- The whitespace characters of Python `str.split()` / `str.strip()`. -/
def isPyWs (c : Char) : Bool :=
  c = ' ' ∨ c = '\t' ∨ c = '\n' ∨ c = '\x0b' ∨ c = '\x0c' ∨ c = '\r'

/-- Python `str.lower()` (ASCII case folding). -/
def pyLower (s : List Char) : List Char :=
  s.map Char.toLower

/-- Python `str.split(sep)` for a one-character separator `sep`. -/
def splitOnChar (sep : Char) : List Char → List (List Char)
  | [] => [[]]
  | c :: t =>
    let r := splitOnChar sep t
    if c = sep then [] :: r else (c :: r.headD []) :: r.tail

/-- Python `text.split('\n')`. -/
def splitLines (s : List Char) : List (List Char) :=
  splitOnChar '\n' s

/-- Accumulator pass of Python whitespace `str.split()`. -/
def splitWsAux : List Char → List Char → List (List Char)
  | [], acc => if acc = [] then [] else [acc.reverse]
  | c :: t, acc =>
    if isPyWs c then
      if acc = [] then splitWsAux t [] else acc.reverse :: splitWsAux t []
    else splitWsAux t (c :: acc)

/-- Python `str.split()` with no argument: split on whitespace runs,
dropping empty tokens. -/
def pySplit (s : List Char) : List (List Char) :=
  splitWsAux s []

/-- Python `str.strip()` with no argument. -/
def pyStrip (s : List Char) : List Char :=
  ((s.dropWhile isPyWs).reverse.dropWhile isPyWs).reverse

/-- Python `hay.find(needle)`: index of the leftmost occurrence, scanning
positions left to right (`none` stands for the -1 of the original). -/
def pyFindAux (needle : List Char) : List Char → Nat → Option Nat
  | [], i => if needle = [] then some i else none
  | c :: t, i =>
    if needle.isPrefixOf (c :: t) then some i else pyFindAux needle t (i + 1)

/-- Python `hay.find(needle)` from position 0. -/
def pyFind (hay needle : List Char) : Option Nat :=
  pyFindAux needle hay 0

/-- Python `needle in hay` substring test. -/
def pyContains (hay needle : List Char) : Bool :=
  (pyFind hay needle).isSome

/-- Python list indexing `l[i]`, with negative-index wraparound and
`IndexError` outside `[-len, len)`. -/
def pyIndex {α : Type} (l : List α) (i : Int) : Except PyErr α :=
  let j : Int := if i < 0 then i + l.length else i
  if h : 0 ≤ j ∧ j.toNat < l.length then .ok (l.get ⟨j.toNat, h.2⟩)
  else .error .indexError

/-- Counting pass of Python `range(a, b)`. -/
def pyRangeGo : Nat → Int → List Int
  | 0, _ => []
  | n + 1, x => x :: pyRangeGo n (x + 1)

/-- Python `range(a, b)` (step 1) as the list `[a, a+1, ..., b-1]`. -/
def pyRange (a b : Int) : List Int :=
  pyRangeGo (b - a).toNat a

/-- Python list slice `l[i:]` (negative start counts from the end). -/
def pySlice {α : Type} (l : List α) (i : Int) : List α :=
  if 0 ≤ i then l.drop i.toNat else l.drop (l.length - (-i).toNat)

/-- Python `' '.join(ws)`. -/
def joinSpace (ws : List (List Char)) : List Char :=
  (ws.intersperse [' ']).flatten

/-- Python `'\n'.join(ls)`. -/
def joinNL (ls : List (List Char)) : List Char :=
  (ls.intersperse ['\n']).flatten

/-- One digit run of Python `int(...)` parsing: decimal digits with single
underscores allowed between digits (ASCII digits; the CLI only receives
ASCII pattern strings). -/
def parseDigitsGo (acc : Nat) : List Char → Option Nat
  | [] => some acc
  | '_' :: c :: r =>
    if c.isDigit then parseDigitsGo (acc * 10 + (c.toNat - 48)) r else none
  | c :: r =>
    if c.isDigit then parseDigitsGo (acc * 10 + (c.toNat - 48)) r else none

/-- Nonempty digit sequence (first char must be a digit). -/
def parseDigitsU : List Char → Option Nat
  | [] => none
  | c :: r =>
    if c.isDigit then parseDigitsGo (c.toNat - 48) r else none

/-- Python `int(s)` on a decimal string: surrounding whitespace stripped,
optional sign, digits with embedded underscores; `none` models the
`ValueError` of a malformed literal. -/
def pyParseInt (s : List Char) : Option Int :=
  match pyStrip s with
  | '-' :: r => (parseDigitsU r).map (fun n => -(n : Int))
  | '+' :: r => (parseDigitsU r).map (fun n => (n : Int))
  | r => (parseDigitsU r).map (fun n => (n : Int))

/-- Pattern specification, the dict built by `cli.parse_pattern` and
consumed by `PatternExtractor.extract_pattern`. -/
structure Pattern where
  keyword : List Char
  direction : List Char
  distance : Int
  extract_type : List Char
deriving DecidableEq, Repr

/-- The position dict returned by
`PatternExtractor._find_keyword_position`. -/
structure KeywordPos where
  line : Int
  word_index : Int
  char_start : Int
  char_end : Int
  line_text : List Char
deriving DecidableEq, Repr

/-- The target-position dict returned by
`PatternExtractor._calculate_target_position`. -/
structure TargetPos where
  line : Int
  word_index : Int
  line_text : List Char
deriving DecidableEq, Repr

/-- Inner word loop of `_find_keyword_position`: walk the whitespace
words of `line`, tracking the synthetic character span
`[char_pos, char_pos + len(word))` of each (Python rebuilds offsets as if
words were single-space separated), and return the first word whose span
contains `start` or whose lowercase text contains the lowercase keyword. -/
def findWordForOffset (kwLower line : List Char) (lineIdx : Nat) (start : Nat) :
    List (List Char) → Nat → Nat → Option KeywordPos
  | [], _, _ => none
  | w :: ws, widx, char_pos =>
    let word_start := char_pos
    let word_end := char_pos + w.length
    if (word_start ≤ start ∧ start < word_end) ∨ pyContains (pyLower w) kwLower then
      some ⟨(lineIdx : Int), (widx : Int), (word_start : Int), (word_end : Int), line⟩
    else
      findWordForOffset kwLower line lineIdx start ws (widx + 1) (word_end + 1)

/-- Outer line loop of `_find_keyword_position`: case-insensitive substring
search per line; on a hit, map the hit offset to a word; if no word of that
line matches, continue with the following lines. -/
def findKeywordAux (kw : List Char) : List (List Char) → Nat → Option KeywordPos
  | [], _ => none
  | line :: rest, idx =>
    match pyFind (pyLower line) (pyLower kw) with
    | some start =>
      match findWordForOffset (pyLower kw) line idx start (pySplit line) 0 0 with
      | some kp => some kp
      | none => findKeywordAux kw rest (idx + 1)
    | none => findKeywordAux kw rest (idx + 1)

/-- `PatternExtractor._find_keyword_position`. -/
def findKeywordPosition (text kw : List Char) : Option KeywordPos :=
  findKeywordAux kw (splitLines text) 0

/-- `PatternExtractor._calculate_target_position`: apply direction and
distance to the keyword anchor; unknown directions fall through to `None`. -/
def calcTargetPosition (text : List Char) (kp : KeywordPos)
    (direction : List Char) (distance : Int) :
    Except PyErr (Option TargetPos) :=
  let lines := splitLines text
  if direction = "left".toList then
    let target_word := kp.word_index - distance
    if target_word < 0 then .ok none
    else do
      let lt ← pyIndex lines kp.line
      pure (some ⟨kp.line, target_word, lt⟩)
  else if direction = "right".toList then do
    let lt ← pyIndex lines kp.line
    let words_in_line : Int := (pySplit lt).length
    let target_word := kp.word_index + distance + 1
    if target_word ≥ words_in_line then pure none
    else pure (some ⟨kp.line, target_word, lt⟩)
  else if direction = "above".toList then
    let target_line := kp.line - distance
    if target_line < 0 then .ok none
    else do
      let lt ← pyIndex lines target_line
      pure (some ⟨target_line, 0, lt⟩)
  else if direction = "below".toList then
    let target_line := kp.line + distance
    if target_line ≥ (lines.length : Int) then .ok none
    else do
      let lt ← pyIndex lines target_line
      pure (some ⟨target_line, 0, lt⟩)
  else .ok none

/-- Leading digit run with trailing `[.,]digits` groups, the greedy tail of
one match of the number regex `-?\d+(?:[.,]\d+)*` (fuel-structured so the
kernel can evaluate it; fuel covers the remaining input length). -/
def numGroupsGo : Nat → List Char → List Char
  | 0, _ => []
  | _ + 1, [] => []
  | fuel + 1, c :: rest =>
    if c = '.' ∨ c = ',' then
      let d := rest.takeWhile Char.isDigit
      if d = [] then []
      else c :: d ++ numGroupsGo fuel (rest.dropWhile Char.isDigit)
    else []

/-- One anchored attempt of `re.search` for `-?\d+(?:[.,]\d+)*` at the head
of `s` (Python regex semantics: greedy digit runs, then greedy separator
groups; a lone minus matches nothing). -/
def matchNumAt : List Char → Option (List Char)
  | [] => none
  | '-' :: rest =>
    let d := rest.takeWhile Char.isDigit
    if d = [] then none
    else some ('-' :: d ++ numGroupsGo rest.length (rest.dropWhile Char.isDigit))
  | c :: rest =>
    if c.isDigit then
      let d := (c :: rest).takeWhile Char.isDigit
      some (d ++ numGroupsGo rest.length ((c :: rest).dropWhile Char.isDigit))
    else none

/-- `self.number_pattern.search(word)`: leftmost match of the numeric token
regex, scanning start positions left to right. -/
def numberSearch : List Char → Option (List Char)
  | [] => none
  | c :: t =>
    match matchNumAt (c :: t) with
    | some m => some m
    | none => numberSearch t

/-- The `number` loop of `_extract_content`: try each index of the Python
`range`, guarded by `i < len(words)`, and return the first regex hit. -/
def numberLoop (words : List (List Char)) : List Int → Except PyErr (Option (List Char))
  | [] => .ok none
  | i :: rest =>
    if i < (words.length : Int) then do
      let w ← pyIndex words i
      match numberSearch w with
      | some m => pure (some m)
      | none => numberLoop words rest
    else numberLoop words rest

/-- `PatternExtractor._extract_content`: extract `line`, `word`, `number`
or `text` content at the target position; unknown types yield `None`. -/
def extractContent (tp : TargetPos) (extract_type : List Char) :
    Except PyErr (Option (List Char)) :=
  let line_text := tp.line_text
  let words := pySplit line_text
  if words = [] then .ok none
  else if extract_type = "line".toList then .ok (some (pyStrip line_text))
  else if extract_type = "word".toList then
    if tp.word_index < (words.length : Int) then do
      let w ← pyIndex words tp.word_index
      pure (some w)
    else .ok none
  else if extract_type = "number".toList then
    numberLoop words (pyRange tp.word_index (min (tp.word_index + 3) (words.length : Int)))
  else if extract_type = "text".toList then
    if tp.word_index < (words.length : Int) then
      .ok (some (joinSpace (pySlice words tp.word_index)))
    else .ok none
  else .ok none

/-- `PatternExtractor.extract_pattern`: keyword location, target-position
calculation, then content extraction; a miss at any stage yields `None`. -/
def extractPattern (text : List Char) (p : Pattern) :
    Except PyErr (Option (List Char)) :=
  match findKeywordPosition text p.keyword with
  | none => .ok none
  | some kp => do
    let tpo ← calcTargetPosition text kp p.direction p.distance
    match tpo with
    | none => pure none
    | some tp => extractContent tp p.extract_type

/-- `cli.parse_pattern`: split on `:` into exactly four fields, parse the
distance with Python `int`, then validate direction and extract type;
every failure raises `ValueError`. -/
def parsePattern (s : List Char) : Except PyErr Pattern :=
  match splitOnChar ':' s with
  | [keyword, direction, distance, extract_type] =>
    match pyParseInt distance with
    | none => .error .valueError
    | some n =>
      if direction = "left".toList ∨ direction = "right".toList ∨
          direction = "above".toList ∨ direction = "below".toList then
        if extract_type = "word".toList ∨ extract_type = "number".toList ∨
            extract_type = "line".toList ∨ extract_type = "text".toList then
          .ok ⟨pyStrip keyword, direction, n, extract_type⟩
        else .error .valueError
      else .error .valueError
  | _ => .error .valueError

/-- One pdfplumber character record, the fields the processor reads
(`text`, `x0`, `y0`, `x1`, `y1`). -/
structure PChar where
  text : List Char
  x0 : ℚ
  y0 : ℚ
  x1 : ℚ
  y1 : ℚ
deriving DecidableEq, Repr

/-- The per-character dict built by the line-processing methods:
text, horizontal center `(x0 + x1) / 2`, and the space flag
`text == ' '`. -/
structure CharDatum where
  text : List Char
  center : ℚ
  is_space : Bool
deriving DecidableEq, Repr

/-- The `char_data` list built at the top of
`_process_line_with_adaptive_filtering` and
`_process_line_with_fixed_filtering`. -/
def toCharData (line_chars : List PChar) : List CharDatum :=
  line_chars.map (fun c => ⟨c.text, (c.x0 + c.x1) / 2, c.text == [' ']⟩)

/-- Ordered insertion for the stable sort below. -/
def insertLe {α : Type} (le : α → α → Bool) (a : α) : List α → List α
  | [] => [a]
  | b :: t => if le a b then a :: b :: t else b :: insertLe le a t

/-- Stable insertion sort, the embedding of the stable Python `sorted` /
`list.sort` (any two stable sorts agree, so insertion sort is a faithful
model of Timsort). -/
def sortLe {α : Type} (le : α → α → Bool) : List α → List α
  | [] => []
  | a :: t => insertLe le a (sortLe le t)

/-- The Python sort key `(-c['y1'], c['x0'])` of `_group_characters_by_line`,
compared lexicographically (a Bool total preorder). -/
def groupKeyLe (a b : PChar) : Bool :=
  -a.y1 < -b.y1 ∨ (-a.y1 = -b.y1 ∧ a.x0 ≤ b.x0)

/-- Comparison of the per-line sort `line.sort(key=lambda c: c['x0'])`. -/
def xKeyLe (a b : PChar) : Bool :=
  a.x0 ≤ b.x0

/-- The grouping walk of `_group_characters_by_line`: accumulate a current
line while the top-Y coordinate stays within `tol` of the reference Y of
the line, close the group otherwise. -/
def groupWalk (tol : ℚ) : List PChar → List PChar → ℚ → List (List PChar)
  | [], cur, _ => [cur]
  | c :: t, cur, y =>
    if |c.y1 - y| ≤ tol then groupWalk tol t (cur ++ [c]) y
    else cur :: groupWalk tol t [c] c.y1

/-- `_group_characters_by_line`: global stable sort by `(-y1, x0)`, group
by Y within tolerance, then re-sort each line by `x0`. -/
def groupCharactersByLine (tol : ℚ) (chars : List PChar) : List (List PChar) :=
  match sortLe groupKeyLe chars with
  | [] => []
  | c0 :: rest =>
    (groupWalk tol rest [c0] c0.y1).map (fun l => sortLe xKeyLe l)

/-- Center-to-center distances of consecutive entries, the index loop
`for i in range(1, len(non_space_chars))` of
`_calculate_average_character_spacing`. -/
def consecDiffs : List ℚ → List ℚ
  | a :: b :: t => (b - a) :: consecDiffs (b :: t)
  | _ => []

/-- `_calculate_average_character_spacing`: median center-to-center spacing
of adjacent non-space characters, keeping only distances in `(0, 50)`, with
fallback 4.8 when fewer than two non-space characters or no surviving
distance exist; the median of an even count is the mean of the two middle
values (list indices there are always in range, so `getD` never falls back). -/
def calcAvgCharSpacing (char_data : List CharDatum) : ℚ :=
  let non_space_chars := char_data.filter (fun c => !c.is_space)
  if non_space_chars.length < 2 then 24 / 5
  else
    let spacings := (consecDiffs (non_space_chars.map (fun c => c.center))).filter
      (fun sp => decide (0 < sp) && decide (sp < 50))
    if spacings = [] then 24 / 5
    else
      let sorted := sortLe (fun a b => decide (a ≤ b)) spacings
      let mid := sorted.length / 2
      if sorted.length % 2 = 0 then
        (sorted.getD (mid - 1) 0 + sorted.getD mid 0) / 2
      else sorted.getD mid 0

/-- `_should_keep_space`: nearest non-space character before the space
(the descending index loop) and after it (the ascending one); keep when a
side is absent, otherwise keep iff the center-to-center distance of the two
neighbors reaches the threshold. -/
def shouldKeepSpace (char_data : List CharDatum) (space_index : Nat)
    (min_space_distance : ℚ) : Bool :=
  let prev := ((char_data.take space_index).reverse).find? (fun c => !c.is_space)
  let next := (char_data.drop (space_index + 1)).find? (fun c => !c.is_space)
  match prev, next with
  | some p, some n => decide (n.center - p.center ≥ min_space_distance)
  | _, _ => true

/-- Index walk of `_apply_center_distance_filtering`. A space character is
kept or dropped via `_should_keep_space`; a non-space character is emitted
and then `self._should_add_space_after(...)` is looked up — that method is
defined nowhere in the class, so the lookup raises `AttributeError` (fuel
equals the remaining index budget; it never runs out before the index
leaves the list). -/
def applyCDFGo (char_data : List CharDatum) (min_space_distance : ℚ) :
    Nat → Nat → List Char → Except PyErr (List Char)
  | 0, _, acc => .ok acc.reverse
  | fuel + 1, i, acc =>
    match char_data.get? i with
    | none => .ok acc.reverse
    | some c =>
      if c.is_space then
        let acc' := if shouldKeepSpace char_data i min_space_distance then ' ' :: acc else acc
        applyCDFGo char_data min_space_distance fuel (i + 1) acc'
      else .error .attributeError

/-- `_apply_center_distance_filtering` (legacy fixed mode): raises
`AttributeError` at the first non-space character, returns the kept spaces
otherwise. -/
def applyCenterDistanceFiltering (char_data : List CharDatum)
    (min_space_distance add_space_distance : ℚ) : Except PyErr (List Char) :=
  let _ := add_space_distance
  applyCDFGo char_data min_space_distance char_data.length 0 []

/-- `_process_line_with_adaptive_filtering`: builds `char_data`, measures
the line pitch and the three adaptive thresholds, then calls
`self._apply_enhanced_center_distance_filtering(...)` — a method defined
nowhere in the repository, so every call on a non-empty line raises
`AttributeError`. -/
def processLineWithAdaptiveFiltering (min_space_ratio add_space_ratio add_tab_ratio : ℚ)
    (line_chars : List PChar) : Except PyErr (List Char) :=
  if line_chars = [] then .ok []
  else
    let char_data := toCharData line_chars
    let avg := calcAvgCharSpacing char_data
    let _ := avg * min_space_ratio
    let _ := avg * add_space_ratio
    let _ := avg * add_tab_ratio
    .error .attributeError

/-- `_process_line_with_fixed_filtering` (legacy mode). -/
def processLineWithFixedFiltering (min_space_distance add_space_distance : ℚ)
    (line_chars : List PChar) : Except PyErr (List Char) :=
  if line_chars = [] then .ok []
  else applyCenterDistanceFiltering (toCharData line_chars) min_space_distance add_space_distance

/-- Modelled from the spec: the walk of
`_apply_enhanced_center_distance_filtering`, which
`_process_line_with_adaptive_filtering` calls but which is defined nowhere
in the repository. Following spec section 4.3: a literal space is kept iff
`_should_keep_space` keeps it; after a non-space character, nothing is
inserted when there is no next character or the next one is a literal
space, otherwise the structural separator (tab) is inserted when the
center distance to the next character reaches `add_tab_distance`, a plain
space when it reaches `add_space_distance`, and nothing below that. -/
def enhSynthGo (char_data : List CharDatum) (ksp isp itab : ℚ) :
    Nat → Nat → List Char
  | 0, _ => []
  | fuel + 1, i =>
    match char_data.get? i with
    | none => []
    | some c =>
      if c.is_space then
        (if shouldKeepSpace char_data i ksp then [' '] else []) ++
          enhSynthGo char_data ksp isp itab fuel (i + 1)
      else
        c.text ++
          (match char_data.get? (i + 1) with
           | some n =>
             if n.is_space then []
             else if n.center - c.center ≥ itab then ['\t']
             else if n.center - c.center ≥ isp then [' ']
             else []
           | none => []) ++
          enhSynthGo char_data ksp isp itab fuel (i + 1)

/-- Modelled from the spec: `_apply_enhanced_center_distance_filtering`
(missing from the repository), as one left-to-right pass. -/
def applyEnhancedCDF (char_data : List CharDatum)
    (min_space_distance add_space_distance add_tab_distance : ℚ) : List Char :=
  enhSynthGo char_data min_space_distance add_space_distance add_tab_distance
    char_data.length 0

/-- Modelled from the spec: `_process_line_with_adaptive_filtering` with
the missing enhanced filter supplied by `applyEnhancedCDF`; thresholds are
the measured line pitch scaled by the three ratios. -/
def processLineAdaptiveModelled (min_space_ratio add_space_ratio add_tab_ratio : ℚ)
    (line_chars : List PChar) : List Char :=
  if line_chars = [] then []
  else
    let char_data := toCharData line_chars
    let avg := calcAvgCharSpacing char_data
    applyEnhancedCDF char_data (avg * min_space_ratio) (avg * add_space_ratio)
      (avg * add_tab_ratio)

/-- Degenerate one-glyph-per-position re-reading of a synthesized line:
character `j` of the string becomes one glyph with center `j` (trivial
recomputed geometry), a space flag for a literal space. -/
def trivialIdx (i : Nat) : List Char → List CharDatum
  | [] => []
  | c :: t => ⟨[c], (i : ℚ), c == ' '⟩ :: trivialIdx (i + 1) t

/-- Trivial geometry of an already-synthesized line. -/
def trivialize (s : List Char) : List CharDatum :=
  trivialIdx 0 s

/-- Re-running the default adaptive synthesis on its own output under
trivial geometry: the pitch is re-measured from the unit-spaced glyphs and
the default ratios 1.3 / 1.1 / 1.3 are applied to it. -/
def resynthAdaptive (s : List Char) : List Char :=
  let cd := trivialize s
  let avg := calcAvgCharSpacing cd
  applyEnhancedCDF cd (avg * (13 / 10)) (avg * (11 / 10)) (avg * (13 / 10))

/-- Re-running the synthesis on its own output with the trivial unit
pitch itself as the spacing profile (thresholds 1.3, 1.1 and 1.3 units). -/
def resynthUnit (s : List Char) : List Char :=
  applyEnhancedCDF (trivialize s) (13 / 10) (11 / 10) (13 / 10)

/-- The per-line loop of `_extract_page_with_filtering` in the default
adaptive mode, on the embedded character list of one page: group into
lines, process each line (the first processed line raises), keep lines
with non-blank text, join with newlines. -/
def pageTextAdaptive (r1 r2 r3 tol : ℚ) (chars : List PChar) :
    Except PyErr (List Char) :=
  if chars = [] then .ok []
  else do
    let lines := groupCharactersByLine tol chars
    let processed ← lines.foldlM
      (fun acc lc => do
        let t ← processLineWithAdaptiveFiltering r1 r2 r3 lc
        pure (if pyStrip t = [] then acc else acc ++ [t]))
      ([] : List (List Char))
    pure (joinNL processed)

/-- The per-page handler of `extract_pages`: a page whose extraction
raises contributes the empty string. -/
def extractPageHandled (r1 r2 r3 tol : ℚ) (chars : List PChar) : List Char :=
  match pageTextAdaptive r1 r2 r3 tol chars with
  | .ok t => t
  | .error _ => []

/-- Spec-side reading of the keep-space rule: index `j` holds the nearest
non-space glyph strictly before index `i`. -/
def NearestNonSpaceBefore (cd : List CharDatum) (i j : Nat) : Prop :=
  j < i ∧ (∃ c, cd.get? j = some c ∧ c.is_space = false) ∧
    ∀ k, j < k → k < i → ∀ c, cd.get? k = some c → c.is_space = true

/-- Spec-side reading of the keep-space rule: index `j` holds the nearest
non-space glyph strictly after index `i`. -/
def NearestNonSpaceAfter (cd : List CharDatum) (i j : Nat) : Prop :=
  i < j ∧ (∃ c, cd.get? j = some c ∧ c.is_space = false) ∧
    ∀ k, i < k → k < j → ∀ c, cd.get? k = some c → c.is_space = true

/-- Spec-side phrasing of the spacing-pitch input: the non-space glyphs of
the line. -/
def nonSpaceGlyphs (cd : List CharDatum) : List CharDatum :=
  cd.filter (fun c => !c.is_space)

/-- Spec-side phrasing of the surviving distances: consecutive
center-to-center distances between adjacent non-space glyphs, with every
distance outside `(0, 50)` discarded. -/
def survivingDistances (cd : List CharDatum) : List ℚ :=
  (((nonSpaceGlyphs cd).zip (nonSpaceGlyphs cd).tail).map
    (fun p => p.2.center - p.1.center)).filter
    (fun sp => decide (0 < sp) && decide (sp < 50))

theorem insertLe_perm {α : Type} (le : α → α → Bool) (a : α) (l : List α) :
    (insertLe le a l).Perm (a :: l) := by
  induction l with
  | nil => simp [insertLe]
  | cons b t ih =>
    simp only [insertLe]
    by_cases h : le a b
    · simp [h]
    · simp only [h, if_neg, Bool.false_eq_true, not_false_iff, if_false]
      exact (ih.cons b).trans (List.Perm.swap a b t)

theorem sortLe_perm {α : Type} (le : α → α → Bool) (l : List α) :
    (sortLe le l).Perm l := by
  induction l with
  | nil => simp [sortLe]
  | cons a t ih =>
    exact (insertLe_perm le a (sortLe le t)).trans (ih.cons a)

theorem insertLe_pairwise {α : Type} (le : α → α → Bool)
    (htot : ∀ a b, le a b = true ∨ le b a = true)
    (htrans : ∀ a b c, le a b = true → le b c = true → le a c = true)
    (a : α) (l : List α) (h : l.Pairwise (le · · = true)) :
    (insertLe le a l).Pairwise (le · · = true) := by
  induction l with
  | nil => simp [insertLe]
  | cons b t ih =>
    rcases List.pairwise_cons.mp h with ⟨hb, ht⟩
    simp only [insertLe]
    by_cases hab : le a b = true
    · rw [if_pos hab]
      refine List.pairwise_cons.mpr ⟨?_, h⟩
      intro x hx
      rcases List.mem_cons.mp hx with hx1 | hx1
      · subst hx1; exact hab
      · exact htrans a b x hab (hb x hx1)
    · have hba : le b a = true := by
        rcases htot a b with h1 | h1
        · exact absurd h1 hab
        · exact h1
      rw [if_neg hab]
      refine List.pairwise_cons.mpr ⟨?_, ih ht⟩
      intro x hx
      have hmem := (insertLe_perm le a t).mem_iff.mp hx
      rcases List.mem_cons.mp hmem with hx1 | hx1
      · subst hx1; exact hba
      · exact hb x hx1

theorem sortLe_pairwise {α : Type} (le : α → α → Bool)
    (htot : ∀ a b, le a b = true ∨ le b a = true)
    (htrans : ∀ a b c, le a b = true → le b c = true → le a c = true)
    (l : List α) : (sortLe le l).Pairwise (le · · = true) := by
  induction l with
  | nil => simp [sortLe]
  | cons a t ih => exact insertLe_pairwise le htot htrans a (sortLe le t) ih

theorem sorted_perm_unique {α : Type} (le : α → α → Bool) :
    ∀ (l₁ l₂ : List α), l₁.Perm l₂ →
      l₁.Pairwise (le · · = true) → l₂.Pairwise (le · · = true) →
      (∀ a ∈ l₁, ∀ b ∈ l₁, le a b = true → le b a = true → a = b) →
      l₁ = l₂ := by
  intro l₁
  induction l₁ with
  | nil => intro l₂ hp _ _ _; simpa using hp.nil_eq
  | cons a t₁ ih =>
    intro l₂ hp s₁ s₂ anti
    cases l₂ with
    | nil => exact absurd hp.symm.nil_eq (by simp)
    | cons b t₂ =>
      rcases List.pairwise_cons.mp s₁ with ⟨ha, ht₁⟩
      rcases List.pairwise_cons.mp s₂ with ⟨hb, ht₂⟩
      have hab : a = b := by
        have hamem : a = b ∨ a ∈ t₂ :=
          List.mem_cons.mp (hp.mem_iff.mp (by simp))
        rcases hamem with h1 | h1
        · exact h1
        · have hbmem : b = a ∨ b ∈ t₁ :=
            List.mem_cons.mp (hp.symm.mem_iff.mp (by simp))
          rcases hbmem with h2 | h2
          · exact h2.symm
          · exact anti a (by simp) b (by simp [h2]) (ha b h2) (hb a h1)
      subst hab
      have hpt : t₁.Perm t₂ := hp.cons_inv
      have : t₁ = t₂ := by
        refine ih t₂ hpt ht₁ ht₂ ?_
        intro x hx y hy
        exact anti x (by simp [hx]) y (by simp [hy])
      rw [this]

theorem groupKeyLe_total (a b : PChar) :
    groupKeyLe a b = true ∨ groupKeyLe b a = true := by
  simp only [groupKeyLe, decide_eq_true_eq]
  rcases lt_trichotomy (-a.y1) (-b.y1) with h | h | h
  · exact Or.inl (Or.inl h)
  · rcases le_total a.x0 b.x0 with hx | hx
    · exact Or.inl (Or.inr ⟨h, hx⟩)
    · exact Or.inr (Or.inr ⟨h.symm, hx⟩)
  · exact Or.inr (Or.inl h)

theorem groupKeyLe_trans (a b c : PChar) :
    groupKeyLe a b = true → groupKeyLe b c = true → groupKeyLe a c = true := by
  simp only [groupKeyLe, decide_eq_true_eq]
  rintro (h1 | ⟨h1, h1x⟩) (h2 | ⟨h2, h2x⟩)
  · exact Or.inl (h1.trans h2)
  · exact Or.inl (h2 ▸ h1)
  · exact Or.inl (h1 ▸ h2)
  · exact Or.inr ⟨h1.trans h2, h1x.trans h2x⟩

theorem groupKeyLe_key_eq (a b : PChar)
    (hab : groupKeyLe a b = true) (hba : groupKeyLe b a = true) :
    a.y1 = b.y1 ∧ a.x0 = b.x0 := by
  simp only [groupKeyLe, decide_eq_true_eq] at hab hba
  rcases hab with h1 | ⟨h1, h1x⟩
  · rcases hba with h2 | ⟨h2, _⟩
    · exact absurd (h1.trans h2) (lt_irrefl _)
    · exact absurd h1 (h2 ▸ lt_irrefl _)
  · rcases hba with h2 | ⟨_, h2x⟩
    · exact absurd h2 (h1 ▸ lt_irrefl _)
    · exact ⟨neg_injective h1, le_antisymm h1x h2x⟩

/-- C10 (corrected). Counterexample to the claim as stated: two distinct
characters that share top-Y and left-X are kept in input order by the
stable sort, so two permutations of the same character list produce
different ordered line groupings. -/
theorem c10_group_counterexample :
    ([⟨['b'], 0, 0, 1, 10⟩, (⟨['a'], 0, 0, 1, 10⟩ : PChar)] :
        List PChar).Perm
      [⟨['a'], 0, 0, 1, 10⟩, ⟨['b'], 0, 0, 1, 10⟩] ∧
    groupCharactersByLine 2 [⟨['a'], 0, 0, 1, 10⟩, ⟨['b'], 0, 0, 1, 10⟩] ≠
      groupCharactersByLine 2 [⟨['b'], 0, 0, 1, 10⟩, ⟨['a'], 0, 0, 1, 10⟩] := by
  with_unfolding_all decide

/-- C10 (amended). For character lists in which no two distinct characters
share both the top-Y and the left-X coordinate, every permutation of the
input yields the identical ordered list of lines, and hence identical
synthesized text. -/
theorem group_permutation_invariant (tol : ℚ) (l₁ l₂ : List PChar)
    (hperm : l₁.Perm l₂)
    (hkeys : ∀ a ∈ l₁, ∀ b ∈ l₁, a.y1 = b.y1 → a.x0 = b.x0 → a = b) :
    groupCharactersByLine tol l₁ = groupCharactersByLine tol l₂ ∧
    (groupCharactersByLine tol l₁).map
        (processLineAdaptiveModelled (13 / 10) (11 / 10) (13 / 10)) =
      (groupCharactersByLine tol l₂).map
        (processLineAdaptiveModelled (13 / 10) (11 / 10) (13 / 10)) := by
  have hsort : sortLe groupKeyLe l₁ = sortLe groupKeyLe l₂ := by
    refine sorted_perm_unique groupKeyLe _ _
      (((sortLe_perm groupKeyLe l₁).trans hperm).trans (sortLe_perm groupKeyLe l₂).symm)
      (sortLe_pairwise groupKeyLe groupKeyLe_total groupKeyLe_trans l₁)
      (sortLe_pairwise groupKeyLe groupKeyLe_total groupKeyLe_trans l₂) ?_
    intro a ha b hb hab hba
    have ha' : a ∈ l₁ := (sortLe_perm groupKeyLe l₁).mem_iff.mp ha
    have hb' : b ∈ l₁ := (sortLe_perm groupKeyLe l₁).mem_iff.mp hb
    rcases groupKeyLe_key_eq a b hab hba with ⟨hy, hx⟩
    exact hkeys a ha' b hb' hy hx
  have hgroup : groupCharactersByLine tol l₁ = groupCharactersByLine tol l₂ := by
    unfold groupCharactersByLine
    rw [hsort]
  exact ⟨hgroup, by rw [hgroup]⟩

theorem group_permutation_invariant_witness :
    groupCharactersByLine 2 [⟨['a'], 0, 0, 1, 10⟩, ⟨['b'], 5, 0, 6, 10⟩] =
      groupCharactersByLine 2 [⟨['b'], 5, 0, 6, 10⟩, ⟨['a'], 0, 0, 1, 10⟩] ∧
    (groupCharactersByLine 2 [⟨['a'], 0, 0, 1, 10⟩, ⟨['b'], 5, 0, 6, 10⟩]).map
        (processLineAdaptiveModelled (13 / 10) (11 / 10) (13 / 10)) =
      (groupCharactersByLine 2 [⟨['b'], 5, 0, 6, 10⟩, ⟨['a'], 0, 0, 1, 10⟩]).map
        (processLineAdaptiveModelled (13 / 10) (11 / 10) (13 / 10)) :=
  group_permutation_invariant 2
    [⟨['a'], 0, 0, 1, 10⟩, ⟨['b'], 5, 0, 6, 10⟩]
    [⟨['b'], 5, 0, 6, 10⟩, ⟨['a'], 0, 0, 1, 10⟩]
    (by with_unfolding_all decide) (by with_unfolding_all decide)

theorem applyCDFGo_error (cd : List CharDatum) (m : ℚ) :
    ∀ (fuel i : Nat) (acc : List Char),
      (∃ j c, i ≤ j ∧ j < i + fuel ∧ cd.get? j = some c ∧ c.is_space = false) →
      applyCDFGo cd m fuel i acc = .error .attributeError := by
  intro fuel
  induction fuel with
  | zero =>
    intro i acc h
    rcases h with ⟨j, c, hij, hjf, _, _⟩
    omega
  | succ fuel ih =>
    intro i acc h
    rcases h with ⟨j, c, hij, hjf, hget, hsp⟩
    simp only [applyCDFGo]
    cases hgi : cd.get? i with
    | none =>
      have : cd.length ≤ i := by
        simpa using List.get?_eq_none.mp hgi
      have : cd.get? j = none := List.get?_eq_none.mpr (le_trans this hij)
      rw [this] at hget
      exact absurd hget (by simp)
    | some ci =>
      dsimp only
      by_cases hci : ci.is_space = true
      · rw [if_pos hci]
        refine ih (i + 1) _ ⟨j, c, ?_, by omega, hget, hsp⟩
        rcases Nat.lt_or_ge i j with hlt | hge
        · omega
        · have hji : j = i := le_antisymm (by omega) hij
          rw [hji, hgi] at hget
          have hcci : ci = c := by injection hget
          rw [hcci.symm] at hsp
          rw [hsp] at hci
          exact absurd hci (by simp)
      · rw [if_neg hci]

theorem groupWalk_head_nonempty (tol : ℚ) :
    ∀ (t cur : List PChar) (y : ℚ), cur ≠ [] →
      ∃ g gs, groupWalk tol t cur y = g :: gs ∧ g ≠ [] := by
  intro t
  induction t with
  | nil =>
    intro cur y hcur
    exact ⟨cur, [], rfl, hcur⟩
  | cons c t ih =>
    intro cur y hcur
    simp only [groupWalk]
    by_cases h : |c.y1 - y| ≤ tol
    · rw [if_pos h]
      exact ih (cur ++ [c]) y (by simp)
    · rw [if_neg h]
      exact ⟨cur, groupWalk tol t [c] c.y1, rfl, hcur⟩

theorem sortLe_ne_nil {α : Type} (le : α → α → Bool) (l : List α) (h : l ≠ []) :
    sortLe le l ≠ [] := by
  intro hc
  have := (sortLe_perm le l).length_eq
  rw [hc] at this
  exact h (List.length_eq_zero.mp this.symm)

/-- C2. The default adaptive line synthesis cannot return a string for a
non-empty line: `_process_line_with_adaptive_filtering` calls the undefined
`_apply_enhanced_center_distance_filtering`, raising `AttributeError`; the
legacy `_apply_center_distance_filtering` calls the undefined
`_should_add_space_after` whenever the line holds a non-space glyph, so it
fails for every such line; and the per-page handler of `extract_pages`
therefore replaces the text of every page that has characters with the
empty string. -/
theorem adaptive_filtering_raises (r1 r2 r3 tol : ℚ) :
    (∀ lc : List PChar, lc ≠ [] →
      processLineWithAdaptiveFiltering r1 r2 r3 lc = .error .attributeError) ∧
    (∀ (cd : List CharDatum) (m a : ℚ), (∃ c ∈ cd, c.is_space = false) →
      applyCenterDistanceFiltering cd m a = .error .attributeError) ∧
    (∀ chars : List PChar, chars ≠ [] →
      extractPageHandled r1 r2 r3 tol chars = []) := by
  have hlegacy : ∀ (cd : List CharDatum) (m a : ℚ), (∃ c ∈ cd, c.is_space = false) →
      applyCenterDistanceFiltering cd m a = .error .attributeError := by
    intro cd m a h
    rcases h with ⟨c, hc, hsp⟩
    rcases List.get_of_mem hc with ⟨⟨j, hj⟩, hget⟩
    refine applyCDFGo_error cd m cd.length 0 [] ⟨j, c, Nat.zero_le j, by omega, ?_, hsp⟩
    rw [List.get?_eq_get hj, hget]
  refine ⟨?_, hlegacy, ?_⟩
  · intro lc hlc
    simp [processLineWithAdaptiveFiltering, hlc]
  · intro chars hchars
    have hsort := sortLe_ne_nil groupKeyLe chars hchars
    unfold extractPageHandled pageTextAdaptive
    rw [if_neg hchars]
    have hgrp : ∃ g gs, groupCharactersByLine tol chars = g :: gs ∧ g ≠ [] := by
      unfold groupCharactersByLine
      cases hs : sortLe groupKeyLe chars with
      | nil => exact absurd hs hsort
      | cons c0 rest =>
        dsimp only
        rcases groupWalk_head_nonempty tol rest [c0] c0.y1 (by simp) with ⟨g, gs, hw, hg⟩
        rw [hw]
        exact ⟨sortLe xKeyLe g, gs.map (fun l => sortLe xKeyLe l), by simp, sortLe_ne_nil xKeyLe g hg⟩
    rcases hgrp with ⟨g, gs, hw, hg⟩
    rw [hw]
    simp only [List.foldlM_cons, processLineWithAdaptiveFiltering, if_neg hg]
    rfl

theorem adaptive_filtering_raises_witness :
    processLineWithAdaptiveFiltering (13 / 10) (11 / 10) (13 / 10)
        [⟨['a'], 0, 0, 1, 10⟩] = .error .attributeError ∧
    extractPageHandled (13 / 10) (11 / 10) (13 / 10) 2
        [⟨['a'], 0, 0, 1, 10⟩] = [] :=
  ⟨(adaptive_filtering_raises (13 / 10) (11 / 10) (13 / 10) 2).1 _ (by simp),
   (adaptive_filtering_raises (13 / 10) (11 / 10) (13 / 10) 2).2.2 _ (by simp)⟩

theorem trivialIdx_get (s : List Char) :
    ∀ (n j : Nat), (trivialIdx n s).get? j =
      (s.get? j).map (fun c => ⟨[c], ((n + j : Nat) : ℚ), c == ' '⟩) := by
  induction s with
  | nil => intro n j; simp [trivialIdx]
  | cons c t ih =>
    intro n j
    cases j with
    | zero => simp [trivialIdx]
    | succ j =>
      simp only [trivialIdx, List.get?_cons_succ, ih (n + 1) j]
      have : n + 1 + j = n + (j + 1) := by omega
      rw [this]

theorem trivialIdx_take (s : List Char) :
    ∀ (n i : Nat), (trivialIdx n s).take i = trivialIdx n (s.take i) := by
  induction s with
  | nil => intro n i; simp [trivialIdx]
  | cons c t ih =>
    intro n i
    cases i with
    | zero => simp [trivialIdx]
    | succ i => simp [trivialIdx, ih (n + 1) i]

theorem trivialIdx_drop (s : List Char) :
    ∀ (n i : Nat), (trivialIdx n s).drop i = trivialIdx (n + i) (s.drop i) := by
  induction s with
  | nil => intro n i; simp [trivialIdx]
  | cons c t ih =>
    intro n i
    cases i with
    | zero => simp [trivialIdx]
    | succ i =>
      simp only [trivialIdx, List.drop_succ_cons, ih (n + 1) i]
      have : n + 1 + i = n + (i + 1) := by omega
      rw [this]

theorem trivialIdx_mem_center (s : List Char) :
    ∀ (n : Nat) (c : CharDatum), c ∈ trivialIdx n s →
      ∃ j, j < s.length ∧ c.center = ((n + j : Nat) : ℚ) := by
  induction s with
  | nil => intro n c h; simp [trivialIdx] at h
  | cons a t ih =>
    intro n c h
    simp only [trivialIdx, List.mem_cons] at h
    rcases h with h | h
    · exact ⟨0, by simp, by rw [h]; simp⟩
    · rcases ih (n + 1) c h with ⟨j, hj, hc⟩
      refine ⟨j + 1, by simpa using Nat.succ_lt_succ hj, ?_⟩
      rw [hc]
      have : n + 1 + j = n + (j + 1) := by omega
      rw [this]

theorem shouldKeepSpace_trivialize (s : List Char) (i : Nat) :
    shouldKeepSpace (trivialize s) i (13 / 10) = true := by
  unfold shouldKeepSpace trivialize
  cases hp : ((trivialIdx 0 s).take i).reverse.find? (fun c => !c.is_space) with
  | none => rfl
  | some p =>
    cases hn : ((trivialIdx 0 s).drop (i + 1)).find? (fun c => !c.is_space) with
    | none => rfl
    | some n =>
      dsimp only
      have hpmem : p ∈ trivialIdx 0 (s.take i) := by
        have := List.mem_reverse.mp (List.mem_of_find?_eq_some hp)
        rwa [trivialIdx_take] at this
      have hnmem : n ∈ trivialIdx (0 + (i + 1)) (s.drop (i + 1)) := by
        have := List.mem_of_find?_eq_some hn
        rwa [trivialIdx_drop] at this
      rcases trivialIdx_mem_center _ _ _ hpmem with ⟨jp, hjp, hpc⟩
      rcases trivialIdx_mem_center _ _ _ hnmem with ⟨jn, _, hnc⟩
      have hjp' : jp < i := lt_of_lt_of_le hjp (List.length_take_le i s)
      have hge : n.center - p.center ≥ 13 / 10 := by
        rw [hpc, hnc]
        have h1 : (0 + jp) + 2 ≤ (0 + (i + 1)) + jn := by omega
        have h2 : ((0 + jp : Nat) : ℚ) + 2 ≤ ((0 + (i + 1) + jn : Nat) : ℚ) := by
          exact_mod_cast h1
        have h3 : (2 : ℚ) ≥ 13 / 10 := by norm_num
        linarith
      exact decide_eq_true hge

theorem enhSynthGo_trivialize_unit (s : List Char) :
    ∀ (fuel i : Nat), s.length ≤ i + fuel →
      enhSynthGo (trivialize s) (13 / 10) (11 / 10) (13 / 10) fuel i = s.drop i := by
  intro fuel
  induction fuel with
  | zero =>
    intro i h
    rw [List.drop_eq_nil_of_le (by omega)]
    rfl
  | succ fuel ih =>
    intro i h
    rw [enhSynthGo]
    have hget : (trivialize s).get? i =
        (s.get? i).map (fun c => ⟨[c], ((0 + i : Nat) : ℚ), c == ' '⟩) :=
      trivialIdx_get s 0 i
    cases hsi : s.get? i with
    | none =>
      rw [hget, hsi]
      dsimp only [Option.map_none']
      rw [List.drop_eq_nil_of_le (by simpa using List.get?_eq_none.mp hsi)]
    | some c =>
      rw [hget, hsi]
      dsimp only [Option.map_some']
      have hdrop : s.drop i = c :: s.drop (i + 1) := by
        have hi : i < s.length := by
          by_contra hcon
          rw [List.get?_eq_none.mpr (by omega)] at hsi
          exact absurd hsi (by simp)
        rw [List.drop_eq_getElem_cons hi]
        congr 1
        have := List.get?_eq_get hi
        rw [this] at hsi
        injection hsi
      by_cases hc : c = ' '
      · have : (⟨[c], ((0 + i : Nat) : ℚ), c == ' '⟩ : CharDatum).is_space = true := by
          simp [hc]
        rw [if_pos this, shouldKeepSpace_trivialize]
        rw [ih (i + 1) (by omega), hdrop, hc]
        rfl
      · have hsp : (⟨[c], ((0 + i : Nat) : ℚ), c == ' '⟩ : CharDatum).is_space = false := by
          simp [hc]
        rw [if_neg (show ¬((c == ' ') = true) by simp [hc])]
        have hnext : (trivialize s).get? (i + 1) =
            (s.get? (i + 1)).map (fun c => ⟨[c], ((0 + (i + 1) : Nat) : ℚ), c == ' '⟩) :=
          trivialIdx_get s 0 (i + 1)
        cases hsn : s.get? (i + 1) with
        | none =>
          rw [hnext, hsn]
          dsimp only [Option.map_none']
          rw [ih (i + 1) (by omega), hdrop]
          rfl
        | some c' =>
          rw [hnext, hsn]
          dsimp only [Option.map_some']
          by_cases hc' : c' = ' '
          · have : (⟨[c'], ((0 + (i + 1) : Nat) : ℚ), c' == ' '⟩ : CharDatum).is_space = true := by
              simp [hc']
            rw [if_pos this, ih (i + 1) (by omega), hdrop]
            rfl
          · have hsp' : (⟨[c'], ((0 + (i + 1) : Nat) : ℚ), c' == ' '⟩ : CharDatum).is_space = false := by
              simp [hc']
            rw [if_neg (show ¬((c' == ' ') = true) by simp [hc'])]
            have hdiff : (((0 + (i + 1) : Nat) : ℚ) - ((0 + i : Nat) : ℚ)) = 1 := by
              push_cast
              ring
            rw [if_neg (by rw [hdiff]; norm_num), if_neg (by rw [hdiff]; norm_num)]
            rw [ih (i + 1) (by omega), hdrop]
            rfl

theorem resynthUnit_id (s : List Char) : resynthUnit s = s := by
  unfold resynthUnit applyEnhancedCDF
  have hlen : (trivialize s).length = s.length := by
    unfold trivialize
    have : ∀ (t : List Char) (n : Nat), (trivialIdx n t).length = t.length := by
      intro t
      induction t with
      | nil => intro n; rfl
      | cons a t ih => intro n; simp [trivialIdx, ih (n + 1)]
    exact this s 0
  rw [hlen, enhSynthGo_trivialize_unit s s.length 0 (by omega), List.drop_zero]

/-- C3 (corrected, spec-modelled synthesis). Counterexample to the claim as
stated: the fixed legacy profile (6.0 / 5.3 / 6.2) synthesizes the line
glyphs at centers 0, 3, 7, 10, 14 to the text `a b c`; re-running the
adaptive synthesis on that output under trivial one-glyph-per-position
geometry re-measures the pitch as 2 units, so the keep-space threshold
becomes 2.6 units, both single spaces (neighbor distance 2) are dropped,
and the second pass returns `abc` instead of the input. -/
theorem resynthesis_counterexample :
    applyEnhancedCDF
        (toCharData
          [⟨['a'], 0, 0, 0, 0⟩, ⟨[' '], 3, 0, 3, 0⟩, ⟨['b'], 7, 0, 7, 0⟩,
           ⟨[' '], 10, 0, 10, 0⟩, ⟨['c'], 14, 0, 14, 0⟩])
        6 (53 / 10) (62 / 10) = "a b c".toList ∧
    resynthAdaptive ("a b c".toList) ≠ "a b c".toList := by
  with_unfolding_all decide

/-- C3 (amended, spec-modelled synthesis). Re-running line-text synthesis
on its own output — one glyph per retained or inserted character at unit
positions — returns that output unchanged for every line of characters and
every spacing profile, provided the second pass takes its thresholds from
the trivial unit pitch itself (1.3, 1.1 and 1.3 units) instead of
re-measuring the pitch from the output glyphs (the re-measured variant
fails, see the counterexample). -/
theorem resynthesis_unit_id (char_data : List CharDatum)
    (min_space_distance add_space_distance add_tab_distance : ℚ) :
    resynthUnit (applyEnhancedCDF char_data
        min_space_distance add_space_distance add_tab_distance) =
      applyEnhancedCDF char_data
        min_space_distance add_space_distance add_tab_distance :=
  resynthUnit_id _

theorem find_drop_spec (cd : List CharDatum) :
    ∀ s : Nat,
      (((cd.drop s).find? (fun c => !c.is_space) = none ↔
          ∀ j n, s ≤ j → cd.get? j = some n → n.is_space = true) ∧
       (∀ n, (cd.drop s).find? (fun c => !c.is_space) = some n ↔
          ∃ j, s ≤ j ∧ cd.get? j = some n ∧ n.is_space = false ∧
            ∀ k c, s ≤ k → k < j → cd.get? k = some c → c.is_space = true)) := by
  induction cd with
  | nil =>
    intro s
    constructor
    · simp
    · intro n
      simp
  | cons a t ih =>
    intro s
    cases s with
    | zero =>
      simp only [List.drop_zero]
      by_cases ha : a.is_space = true
      · have hfind : (a :: t).find? (fun c => !c.is_space) =
            t.find? (fun c => !c.is_space) := by
          rw [List.find?_cons_of_neg]
          simp [ha]
        have iht := ih 0
        rw [List.drop_zero] at iht
        constructor
        · rw [hfind, iht.1]
          constructor
          · intro h j n _ hj
            cases j with
            | zero =>
              have : a = n := by injection hj
              rw [this] at ha
              exact ha
            | succ j => exact h j n (Nat.zero_le j) hj
          · intro h j n _ hj
            exact h (j + 1) n (Nat.zero_le _) hj
        · intro n
          rw [hfind, (iht.2 n)]
          constructor
          · rintro ⟨j, _, hj, hn, hbet⟩
            refine ⟨j + 1, Nat.zero_le _, hj, hn, ?_⟩
            intro k c _ hk hc
            cases k with
            | zero =>
              have : a = c := by injection hc
              rw [this] at ha
              exact ha
            | succ k => exact hbet k c (Nat.zero_le k) (by omega) hc
          · rintro ⟨j, _, hj, hn, hbet⟩
            cases j with
            | zero =>
              have : a = n := by injection hj
              rw [this] at ha
              rw [ha] at hn
              exact absurd hn (by simp)
            | succ j =>
              refine ⟨j, Nat.zero_le j, hj, hn, ?_⟩
              intro k c _ hk hc
              exact hbet (k + 1) c (Nat.zero_le _) (by omega) hc
      · have ha' : a.is_space = false := by
          cases hx : a.is_space
          · rfl
          · exact absurd hx ha
        have hfind : (a :: t).find? (fun c => !c.is_space) = some a := by
          rw [List.find?_cons_of_pos]
          simp [ha']
        constructor
        · rw [hfind]
          constructor
          · intro h
            exact absurd h (by simp)
          · intro h
            have := h 0 a (Nat.le_refl 0) rfl
            rw [this] at ha'
            exact absurd ha' (by simp)
        · intro n
          rw [hfind]
          constructor
          · intro h
            have hn : a = n := by injection h
            subst hn
            exact ⟨0, Nat.le_refl 0, rfl, ha', by omega⟩
          · rintro ⟨j, _, hj, hn, hbet⟩
            cases j with
            | zero =>
              have : a = n := by injection hj
              rw [this]
            | succ j =>
              have := hbet 0 a (Nat.zero_le 0) (by omega) rfl
              rw [this] at ha'
              exact absurd ha' (by simp)
    | succ s =>
      have hdrop : (a :: t).drop (s + 1) = t.drop s := rfl
      have iht := ih s
      constructor
      · rw [hdrop, iht.1]
        constructor
        · intro h j n hsj hj
          cases j with
          | zero => omega
          | succ j => exact h j n (by omega) hj
        · intro h j n hsj hj
          exact h (j + 1) n (by omega) hj
      · intro n
        rw [hdrop, (iht.2 n)]
        constructor
        · rintro ⟨j, hsj, hj, hn, hbet⟩
          refine ⟨j + 1, by omega, hj, hn, ?_⟩
          intro k c hsk hk hc
          cases k with
          | zero => omega
          | succ k => exact hbet k c (by omega) (by omega) hc
        · rintro ⟨j, hsj, hj, hn, hbet⟩
          cases j with
          | zero => omega
          | succ j =>
            refine ⟨j, by omega, hj, hn, ?_⟩
            intro k c hsk hk hc
            exact hbet (k + 1) c (by omega) (by omega) hc

theorem find_back_spec (cd : List CharDatum) :
    ∀ i : Nat,
      (((cd.take i).reverse.find? (fun c => !c.is_space) = none ↔
          ∀ j p, j < i → cd.get? j = some p → p.is_space = true) ∧
       (∀ p, (cd.take i).reverse.find? (fun c => !c.is_space) = some p ↔
          ∃ j, j < i ∧ cd.get? j = some p ∧ p.is_space = false ∧
            ∀ k c, j < k → k < i → cd.get? k = some c → c.is_space = true)) := by
  intro i
  induction i with
  | zero =>
    constructor
    · simp
    · intro p
      constructor
      · intro h
        simp at h
      · rintro ⟨j, hj, _⟩
        omega
  | succ i ih =>
    rw [List.take_succ, show cd[i]? = cd.get? i from (List.get?_eq_getElem? cd i).symm]
    cases hgi : cd.get? i with
    | none =>
      rw [show (none : Option CharDatum).toList = [] from rfl, List.append_nil]
      constructor
      · rw [ih.1]
        constructor
        · intro h j p hj hp
          rcases Nat.lt_or_ge j i with hj' | hj'
          · exact h j p hj' hp
          · have : j = i := by omega
            rw [this, hgi] at hp
            exact absurd hp (by simp)
        · intro h j p hj hp
          exact h j p (by omega) hp
      · intro p
        rw [ih.2 p]
        constructor
        · rintro ⟨j, hj, hp, hsp, hbet⟩
          refine ⟨j, by omega, hp, hsp, ?_⟩
          intro k c hk hk' hc
          rcases Nat.lt_or_ge k i with hki | hki
          · exact hbet k c hk hki hc
          · have : k = i := by omega
            rw [this, hgi] at hc
            exact absurd hc (by simp)
        · rintro ⟨j, hj, hp, hsp, hbet⟩
          have hji : j ≠ i := by
            intro h
            rw [h, hgi] at hp
            exact absurd hp (by simp)
          refine ⟨j, by omega, hp, hsp, ?_⟩
          intro k c hk hk' hc
          exact hbet k c hk (by omega) hc
    | some ci =>
      rw [show (some ci).toList = [ci] from rfl]
      have hrev : (cd.take i ++ [ci]).reverse = ci :: (cd.take i).reverse := by
        simp
      rw [hrev]
      by_cases hci : ci.is_space = true
      · have hfind : (ci :: (cd.take i).reverse).find? (fun c => !c.is_space) =
            ((cd.take i).reverse).find? (fun c => !c.is_space) := by
          rw [List.find?_cons_of_neg]
          simp [hci]
        rw [hfind]
        constructor
        · rw [ih.1]
          constructor
          · intro h j p hj hp
            rcases Nat.lt_or_ge j i with hj' | hj'
            · exact h j p hj' hp
            · have : j = i := by omega
              rw [this, hgi] at hp
              have : ci = p := by injection hp
              rw [this] at hci
              exact hci
          · intro h j p hj hp
            exact h j p (by omega) hp
        · intro p
          rw [ih.2 p]
          constructor
          · rintro ⟨j, hj, hp, hsp, hbet⟩
            refine ⟨j, by omega, hp, hsp, ?_⟩
            intro k c hk hk' hc
            rcases Nat.lt_or_ge k i with hki | hki
            · exact hbet k c hk hki hc
            · have : k = i := by omega
              rw [this, hgi] at hc
              have : ci = c := by injection hc
              rw [this] at hci
              exact hci
          · rintro ⟨j, hj, hp, hsp, hbet⟩
            have hji : j ≠ i := by
              intro h
              rw [h, hgi] at hp
              have : ci = p := by injection hp
              rw [this, hsp] at hci
              exact absurd hci (by simp)
            refine ⟨j, by omega, hp, hsp, ?_⟩
            intro k c hk hk' hc
            exact hbet k c hk (by omega) hc
      · have hci' : ci.is_space = false := by
          cases hx : ci.is_space
          · rfl
          · exact absurd hx hci
        have hfind : (ci :: (cd.take i).reverse).find? (fun c => !c.is_space) =
            some ci := by
          rw [List.find?_cons_of_pos]
          simp [hci']
        rw [hfind]
        constructor
        · constructor
          · intro h
            exact absurd h (by simp)
          · intro h
            have := h i ci (by omega) hgi
            rw [this] at hci'
            exact absurd hci' (by simp)
        · intro p
          constructor
          · intro h
            have hp : ci = p := by injection h
            subst hp
            exact ⟨i, by omega, hgi, hci', by omega⟩
          · rintro ⟨j, hj, hp, hsp, hbet⟩
            rcases Nat.lt_or_ge j i with hji | hji
            · have := hbet i ci (by omega) (by omega) hgi
              rw [this] at hci'
              exact absurd hci' (by simp)
            · have : j = i := by omega
              rw [this, hgi] at hp
              have : ci = p := by injection hp
              rw [this]

theorem nearestBefore_unique (cd : List CharDatum) (i j1 j2 : Nat)
    (h1 : NearestNonSpaceBefore cd i j1) (h2 : NearestNonSpaceBefore cd i j2) :
    j1 = j2 := by
  rcases h1 with ⟨hj1, ⟨c1, hc1, hs1⟩, hbet1⟩
  rcases h2 with ⟨hj2, ⟨c2, hc2, hs2⟩, hbet2⟩
  rcases lt_trichotomy j1 j2 with h | h | h
  · have := hbet1 j2 h hj2 c2 hc2
    rw [this] at hs2
    exact absurd hs2 (by simp)
  · exact h
  · have := hbet2 j1 h hj1 c1 hc1
    rw [this] at hs1
    exact absurd hs1 (by simp)

theorem nearestAfter_unique (cd : List CharDatum) (i j1 j2 : Nat)
    (h1 : NearestNonSpaceAfter cd i j1) (h2 : NearestNonSpaceAfter cd i j2) :
    j1 = j2 := by
  rcases h1 with ⟨hj1, ⟨c1, hc1, hs1⟩, hbet1⟩
  rcases h2 with ⟨hj2, ⟨c2, hc2, hs2⟩, hbet2⟩
  rcases lt_trichotomy j1 j2 with h | h | h
  · have := hbet2 j1 hj1 h c1 hc1
    rw [this] at hs1
    exact absurd hs1 (by simp)
  · exact h
  · have := hbet1 j2 hj2 h c2 hc2
    rw [this] at hs2
    exact absurd hs2 (by simp)

theorem back_some_iff (cd : List CharDatum) (i : Nat) (p : CharDatum) :
    (cd.take i).reverse.find? (fun c => !c.is_space) = some p ↔
      ∃ j, NearestNonSpaceBefore cd i j ∧ cd.get? j = some p := by
  rw [(find_back_spec cd i).2 p]
  constructor
  · rintro ⟨j, hj, hp, hsp, hbet⟩
    exact ⟨j, ⟨hj, ⟨p, hp, hsp⟩, fun k hk1 hk2 c hc => hbet k c hk1 hk2 hc⟩, hp⟩
  · rintro ⟨j, ⟨hj, ⟨c, hc, hsc⟩, hbet⟩, hp⟩
    have hcp : c = p := by
      rw [hc] at hp
      injection hp
    subst hcp
    exact ⟨j, hj, hp, hsc, fun k c hk1 hk2 hck => hbet k hk1 hk2 c hck⟩

theorem fwd_some_iff (cd : List CharDatum) (i : Nat) (n : CharDatum) :
    (cd.drop (i + 1)).find? (fun c => !c.is_space) = some n ↔
      ∃ j, NearestNonSpaceAfter cd i j ∧ cd.get? j = some n := by
  rw [(find_drop_spec cd (i + 1)).2 n]
  constructor
  · rintro ⟨j, hj, hn, hsn, hbet⟩
    exact ⟨j, ⟨hj, ⟨n, hn, hsn⟩, fun k hk1 hk2 c hc => hbet k c hk1 hk2 hc⟩, hn⟩
  · rintro ⟨j, ⟨hj, ⟨c, hc, hsc⟩, hbet⟩, hn⟩
    have hcn : c = n := by
      rw [hc] at hn
      injection hn
    subst hcn
    exact ⟨j, hj, hn, hsc, fun k c hk1 hk2 hck => hbet k hk1 hk2 c hck⟩

/-- C6. For every line character list, every index of a literal space
glyph, and every threshold, the keep-space decision returns keep when
either side has no non-space glyph, and otherwise keeps the space iff the
center-to-center distance between the nearest non-space glyphs before and
after the space reaches the threshold; a strictly smaller distance drops
the space. -/
theorem shouldKeepSpace_spec (cd : List CharDatum) (i : Nat) (m : ℚ)
    (hlen : i < cd.length) (hisp : ∀ c, cd.get? i = some c → c.is_space = true) :
    (shouldKeepSpace cd i m = true ↔
      ((∀ j p, j < i → cd.get? j = some p → p.is_space = true) ∨
       (∀ j n, i < j → cd.get? j = some n → n.is_space = true) ∨
       (∃ jp jn p n, NearestNonSpaceBefore cd i jp ∧ cd.get? jp = some p ∧
          NearestNonSpaceAfter cd i jn ∧ cd.get? jn = some n ∧
          n.center - p.center ≥ m))) ∧
    (shouldKeepSpace cd i m = false ↔
      (∃ jp jn p n, NearestNonSpaceBefore cd i jp ∧ cd.get? jp = some p ∧
         NearestNonSpaceAfter cd i jn ∧ cd.get? jn = some n ∧
         n.center - p.center < m)) := by
  clear hlen hisp
  unfold shouldKeepSpace
  cases hp : (cd.take i).reverse.find? (fun c => !c.is_space) with
  | none =>
    have hnone : ∀ j p, j < i → cd.get? j = some p → p.is_space = true :=
      (find_back_spec cd i).1.mp hp
    constructor
    · constructor
      · intro _
        exact Or.inl hnone
      · intro _
        cases hn : (cd.drop (i + 1)).find? (fun c => !c.is_space) <;> rfl
    · constructor
      · intro h
        cases hn : (cd.drop (i + 1)).find? (fun c => !c.is_space) <;>
          rw [hn] at h <;> exact absurd h (by simp)
      · rintro ⟨jp, _, p, _, ⟨hjp, ⟨c, hc, hsc⟩, _⟩, _⟩
        have := hnone jp c hjp hc
        rw [this] at hsc
        exact absurd hsc (by simp)
  | some p =>
    cases hn : (cd.drop (i + 1)).find? (fun c => !c.is_space) with
    | none =>
      have hnone : ∀ j n, i < j → cd.get? j = some n → n.is_space = true := by
        have h0 := (find_drop_spec cd (i + 1)).1.mp hn
        intro j n hj hjn
        exact h0 j n hj hjn
      constructor
      · constructor
        · intro _
          exact Or.inr (Or.inl hnone)
        · intro _
          rfl
      · constructor
        · intro h
          exact absurd h (by simp)
        · rintro ⟨jp, jn, p', n', _, _, ⟨hjn, ⟨c, hc, hsc⟩, _⟩, _⟩
          have := hnone jn c hjn hc
          rw [this] at hsc
          exact absurd hsc (by simp)
    | some n =>
      dsimp only
      rcases (back_some_iff cd i p).mp hp with ⟨jp, hnbp, hgetp⟩
      rcases (fwd_some_iff cd i n).mp hn with ⟨jn, hnan, hgetn⟩
      have hval : ∀ (p' n' : CharDatum) (jp' jn' : Nat),
          NearestNonSpaceBefore cd i jp' → cd.get? jp' = some p' →
          NearestNonSpaceAfter cd i jn' → cd.get? jn' = some n' →
          p' = p ∧ n' = n := by
        intro p' n' jp' jn' hb' hgp' ha' hgn'
        have e1 : jp' = jp := nearestBefore_unique cd i jp' jp hb' hnbp
        have e2 : jn' = jn := nearestAfter_unique cd i jn' jn ha' hnan
        rw [e1, hgetp] at hgp'
        rw [e2, hgetn] at hgn'
        constructor
        · injection hgp'.symm
        · injection hgn'.symm
      have hspacep : p.is_space = false := by
        rcases hnbp with ⟨_, ⟨c, hc, hsc⟩, _⟩
        rw [hc] at hgetp
        have : c = p := by injection hgetp
        rw [← this]
        exact hsc
      have hspacen : n.is_space = false := by
        rcases hnan with ⟨_, ⟨c, hc, hsc⟩, _⟩
        rw [hc] at hgetn
        have : c = n := by injection hgetn
        rw [← this]
        exact hsc
      constructor
      · constructor
        · intro h
          have hge : n.center - p.center ≥ m := of_decide_eq_true h
          exact Or.inr (Or.inr ⟨jp, jn, p, n, hnbp, hgetp, hnan, hgetn, hge⟩)
        · intro h
          rcases h with h | h | h
          · have := h jp p hnbp.1 hgetp
            rw [this] at hspacep
            exact absurd hspacep (by simp)
          · have := h jn n hnan.1 hgetn
            rw [this] at hspacen
            exact absurd hspacen (by simp)
          · rcases h with ⟨jp', jn', p', n', hb', hgp', ha', hgn', hge'⟩
            rcases hval p' n' jp' jn' hb' hgp' ha' hgn' with ⟨ep, en⟩
            rw [ep, en] at hge'
            exact decide_eq_true hge'
      · constructor
        · intro h
          have hlt : n.center - p.center < m := by
            by_contra hcon
            rw [decide_eq_true (not_lt.mp hcon)] at h
            exact absurd h (by simp)
          exact ⟨jp, jn, p, n, hnbp, hgetp, hnan, hgetn, hlt⟩
        · rintro ⟨jp', jn', p', n', hb', hgp', ha', hgn', hlt'⟩
          rcases hval p' n' jp' jn' hb' hgp' ha' hgn' with ⟨ep, en⟩
          rw [ep, en] at hlt'
          exact decide_eq_false (not_le.mpr hlt')

theorem shouldKeepSpace_spec_witness :
    (shouldKeepSpace [⟨['a'], 0, false⟩, ⟨[' '], 1, true⟩, ⟨['b'], 3, false⟩]
        1 (13 / 10) = true ↔
      ((∀ j p, j < 1 →
          ([⟨['a'], 0, false⟩, ⟨[' '], 1, true⟩, ⟨['b'], 3, false⟩] :
            List CharDatum).get? j = some p → p.is_space = true) ∨
       (∀ j n, 1 < j →
          ([⟨['a'], 0, false⟩, ⟨[' '], 1, true⟩, ⟨['b'], 3, false⟩] :
            List CharDatum).get? j = some n → n.is_space = true) ∨
       (∃ jp jn p n,
          NearestNonSpaceBefore
            [⟨['a'], 0, false⟩, ⟨[' '], 1, true⟩, ⟨['b'], 3, false⟩] 1 jp ∧
          ([⟨['a'], 0, false⟩, ⟨[' '], 1, true⟩, ⟨['b'], 3, false⟩] :
            List CharDatum).get? jp = some p ∧
          NearestNonSpaceAfter
            [⟨['a'], 0, false⟩, ⟨[' '], 1, true⟩, ⟨['b'], 3, false⟩] 1 jn ∧
          ([⟨['a'], 0, false⟩, ⟨[' '], 1, true⟩, ⟨['b'], 3, false⟩] :
            List CharDatum).get? jn = some n ∧
          n.center - p.center ≥ 13 / 10))) ∧
    (shouldKeepSpace [⟨['a'], 0, false⟩, ⟨[' '], 1, true⟩, ⟨['b'], 3, false⟩]
        1 (13 / 10) = false ↔
      (∃ jp jn p n,
         NearestNonSpaceBefore
           [⟨['a'], 0, false⟩, ⟨[' '], 1, true⟩, ⟨['b'], 3, false⟩] 1 jp ∧
         ([⟨['a'], 0, false⟩, ⟨[' '], 1, true⟩, ⟨['b'], 3, false⟩] :
           List CharDatum).get? jp = some p ∧
         NearestNonSpaceAfter
           [⟨['a'], 0, false⟩, ⟨[' '], 1, true⟩, ⟨['b'], 3, false⟩] 1 jn ∧
         ([⟨['a'], 0, false⟩, ⟨[' '], 1, true⟩, ⟨['b'], 3, false⟩] :
           List CharDatum).get? jn = some n ∧
         n.center - p.center < 13 / 10)) :=
  shouldKeepSpace_spec
    [⟨['a'], 0, false⟩, ⟨[' '], 1, true⟩, ⟨['b'], 3, false⟩] 1 (13 / 10)
    (by decide) (by intro c hc; cases hc; rfl)

theorem consecDiffs_zip (ns : List CharDatum) :
    consecDiffs (ns.map (fun c => c.center)) =
      (ns.zip ns.tail).map (fun p => p.2.center - p.1.center) := by
  induction ns with
  | nil => rfl
  | cons a t ih =>
    cases t with
    | nil => rfl
    | cons b t2 =>
      simp only [List.map_cons, consecDiffs, List.tail_cons, List.zip_cons_cons]
      rw [show (b :: t2).zip t2 = (b :: t2).zip ((b :: t2).tail) from rfl]
      rw [← ih]
      simp [consecDiffs]

theorem rat_le_total_decide (a b : ℚ) :
    decide (a ≤ b) = true ∨ decide (b ≤ a) = true := by
  rcases le_total a b with h | h
  · exact Or.inl (decide_eq_true h)
  · exact Or.inr (decide_eq_true h)

theorem rat_le_trans_decide (a b c : ℚ) :
    decide (a ≤ b) = true → decide (b ≤ c) = true → decide (a ≤ c) = true := by
  intro h1 h2
  exact decide_eq_true (le_trans (of_decide_eq_true h1) (of_decide_eq_true h2))

/-- C7. The spacing-pitch computation returns the fallback 4.8 when fewer
than two non-space glyphs exist or no consecutive center-to-center distance
in `(0, 50)` survives, and otherwise the median of the surviving distances:
there is a sorted permutation `sl` of the surviving distances, and the
result reads the middle of `sl` (the mean of the two middle values for an
even count). -/
theorem calcAvgCharSpacing_spec (cd : List CharDatum) :
    ∃ sl : List ℚ, sl.Perm (survivingDistances cd) ∧ sl.Sorted (· ≤ ·) ∧
      calcAvgCharSpacing cd =
        (if (nonSpaceGlyphs cd).length < 2 ∨ sl = [] then 24 / 5
         else if sl.length % 2 = 0 then
           (sl.getD (sl.length / 2 - 1) 0 + sl.getD (sl.length / 2) 0) / 2
         else sl.getD (sl.length / 2) 0) := by
  refine ⟨sortLe (fun a b => decide (a ≤ b)) (survivingDistances cd),
    sortLe_perm _ _, ?_, ?_⟩
  · have hp := sortLe_pairwise (fun a b => decide (a ≤ b))
      rat_le_total_decide rat_le_trans_decide (survivingDistances cd)
    exact hp.imp (fun h => of_decide_eq_true h)
  · unfold calcAvgCharSpacing
    have hsurv :
        (consecDiffs ((cd.filter (fun c => !c.is_space)).map (fun c => c.center))).filter
            (fun sp => decide (0 < sp) && decide (sp < 50)) =
          survivingDistances cd := by
      unfold survivingDistances nonSpaceGlyphs
      rw [consecDiffs_zip]
    by_cases h2 : (cd.filter (fun c => !c.is_space)).length < 2
    · rw [if_pos h2]
      have : (nonSpaceGlyphs cd).length < 2 := h2
      rw [if_pos (Or.inl this)]
    · rw [if_neg h2]
      rw [hsurv]
      by_cases hs : survivingDistances cd = []
      · rw [if_pos hs]
        have hsl : sortLe (fun a b => decide (a ≤ b)) (survivingDistances cd) = [] := by
          rw [hs]
          rfl
        rw [if_pos (Or.inr hsl)]
      · rw [if_neg hs]
        have hsl : sortLe (fun a b => decide (a ≤ b)) (survivingDistances cd) ≠ [] :=
          sortLe_ne_nil _ _ hs
        have hcond : ¬((nonSpaceGlyphs cd).length < 2 ∨
            sortLe (fun a b => decide (a ≤ b)) (survivingDistances cd) = []) := by
          intro hcon
          rcases hcon with hcon | hcon
          · exact h2 hcon
          · exact hsl hcon
        rw [if_neg hcond]

theorem pyRange_nil (a b : Int) (h : b ≤ a) : pyRange a b = [] := by
  unfold pyRange
  have : (b - a).toNat = 0 := by omega
  rw [this]
  rfl

theorem pyRange_cons (a b : Int) (h : a < b) :
    pyRange a b = a :: pyRange (a + 1) b := by
  unfold pyRange
  have h1 : (b - a).toNat = (b - (a + 1)).toNat + 1 := by omega
  rw [h1]
  rfl

theorem except_bind_ok {ε α β : Type} (x : α) (f : α → Except ε β) :
    ((Except.ok x : Except ε α) >>= f) = f x := rfl

theorem pyIndex_ok {α : Type} (l : List α) (i : Int) (h0 : 0 ≤ i)
    (hl : i.toNat < l.length) : pyIndex l i = .ok (l.get ⟨i.toNat, hl⟩) := by
  unfold pyIndex
  have hj : (if i < 0 then i + (l.length : Int) else i) = i := by
    rw [if_neg (by omega)]
  simp only [hj]
  rw [dif_pos ⟨h0, hl⟩]

theorem numberLoop_spec (words : List (List Char)) :
    ∀ (n : Nat) (a : Int), 0 ≤ a →
      numberLoop words (pyRange a (min (a + (n : Int)) (words.length : Int))) =
        .ok (((words.drop a.toNat).take n).findSome? numberSearch) := by
  intro n
  induction n with
  | zero =>
    intro a ha
    rw [pyRange_nil _ _ (by omega)]
    simp [numberLoop]
  | succ n ih =>
    intro a ha
    by_cases hlen : a < (words.length : Int)
    · have hmin : a < min (a + ((n + 1 : Nat) : Int)) (words.length : Int) := by
        omega
      rw [pyRange_cons _ _ hmin]
      have htn : a.toNat < words.length := by omega
      have hidx : pyIndex words a = .ok (words.get ⟨a.toNat, htn⟩) :=
        pyIndex_ok words a ha htn
      have hdrop : words.drop a.toNat =
          words.get ⟨a.toNat, htn⟩ :: words.drop (a.toNat + 1) := by
        rw [List.drop_eq_getElem_cons htn]
        rfl
      rw [hdrop]
      simp only [numberLoop, if_pos hlen, hidx, except_bind_ok,
        List.take_succ_cons, List.findSome?_cons]
      cases hns : numberSearch (words.get ⟨a.toNat, htn⟩) with
      | some m => rfl
      | none =>
        dsimp only
        have hshift : min (a + ((n + 1 : Nat) : Int)) (words.length : Int) =
            min ((a + 1) + (n : Int)) (words.length : Int) := by
          omega
        rw [hshift, ih (a + 1) (by omega)]
        have htn1 : (a + 1).toNat = a.toNat + 1 := by omega
        rw [htn1]
    · rw [pyRange_nil _ _ (by omega)]
      have hd : words.drop a.toNat = [] := by
        apply List.drop_eq_nil_of_le
        omega
      rw [hd]
      simp [numberLoop]

/-- C8. With extract type `number`, extraction scans at most 3 words of the
target line starting at the target word index (clamped to the word count)
and returns the first match of the numeric-token regex in any scanned
word, absent if none matches; on `Total Amount: $1,234.56 USD` with anchor
`Total Amount:`, direction `right` and distance 0, it returns `1,234.56`. -/
theorem extract_number_spec :
    (∀ tp : TargetPos, 0 ≤ tp.word_index →
      extractContent tp ("number".toList) =
        .ok ((((pySplit tp.line_text).drop tp.word_index.toNat).take 3).findSome?
          numberSearch)) ∧
    extractPattern ("Total Amount: $1,234.56 USD".toList)
        ⟨"Total Amount:".toList, "right".toList, 0, "number".toList⟩ =
      .ok (some ("1,234.56".toList)) := by
  constructor
  · intro tp h
    unfold extractContent
    by_cases hw : pySplit tp.line_text = []
    · rw [if_pos hw, hw]
      simp
    · rw [if_neg hw, if_neg (by decide), if_neg (by decide), if_pos rfl]
      have := numberLoop_spec (pySplit tp.line_text) 3 tp.word_index h
      exact this
  · decide

theorem findWordForOffset_fields (kwL line : List Char) (lineIdx start : Nat) :
    ∀ (words : List (List Char)) (widx char_pos : Nat) (kp : KeywordPos),
      findWordForOffset kwL line lineIdx start words widx char_pos = some kp →
      kp.line = (lineIdx : Int) ∧ kp.line_text = line ∧ 0 ≤ kp.word_index := by
  intro words
  induction words with
  | nil => intro widx char_pos kp h; exact absurd h (by simp [findWordForOffset])
  | cons w ws ih =>
    intro widx char_pos kp h
    rw [findWordForOffset] at h
    by_cases hc : (char_pos ≤ start ∧ start < char_pos + w.length) ∨
        pyContains (pyLower w) kwL = true
    · rw [if_pos hc] at h
      have : (⟨(lineIdx : Int), (widx : Int), (char_pos : Int),
          ((char_pos + w.length : Nat) : Int), line⟩ : KeywordPos) = kp := by
        injection h
      rw [← this]
      refine ⟨rfl, rfl, ?_⟩
      exact Int.ofNat_nonneg widx
    · rw [if_neg hc] at h
      exact ih (widx + 1) (char_pos + w.length + 1) kp h

theorem findKeywordAux_bounds (kw : List Char) :
    ∀ (ls : List (List Char)) (idx : Nat) (kp : KeywordPos),
      findKeywordAux kw ls idx = some kp →
      ∃ j, j < ls.length ∧ kp.line = ((idx + j : Nat) : Int) ∧
        ls.get? j = some kp.line_text ∧ 0 ≤ kp.word_index := by
  intro ls
  induction ls with
  | nil => intro idx kp h; exact absurd h (by simp [findKeywordAux])
  | cons line rest ih =>
    intro idx kp h
    rw [findKeywordAux] at h
    cases hfind : pyFind (pyLower line) (pyLower kw) with
    | some start =>
      rw [hfind] at h
      dsimp only at h
      cases hw : findWordForOffset (pyLower kw) line idx start (pySplit line) 0 0 with
      | some kp' =>
        rw [hw] at h
        have hkp : kp' = kp := by injection h
        subst hkp
        rcases findWordForOffset_fields (pyLower kw) line idx start
          (pySplit line) 0 0 kp' hw with ⟨hl, hlt, hwi⟩
        exact ⟨0, by simp, by rw [hl]; norm_num, by rw [hlt]; rfl, hwi⟩
      | none =>
        rw [hw] at h
        rcases ih (idx + 1) kp h with ⟨j, hj, hl, hget, hwi⟩
        refine ⟨j + 1, by simpa using Nat.succ_lt_succ hj, ?_, by simpa using hget, hwi⟩
        rw [hl]
        congr 1
        omega
    | none =>
      rw [hfind] at h
      dsimp only at h
      rcases ih (idx + 1) kp h with ⟨j, hj, hl, hget, hwi⟩
      refine ⟨j + 1, by simpa using Nat.succ_lt_succ hj, ?_, by simpa using hget, hwi⟩
      rw [hl]
      congr 1
      omega

theorem findKeywordPosition_bounds (text kw : List Char) (kp : KeywordPos)
    (hf : findKeywordPosition text kw = some kp) :
    0 ≤ kp.line ∧ kp.line.toNat < (splitLines text).length ∧
      (splitLines text).get? kp.line.toNat = some kp.line_text ∧
      0 ≤ kp.word_index := by
  rcases findKeywordAux_bounds kw (splitLines text) 0 kp hf with ⟨j, hj, hl, hget, hwi⟩
  have h0 : (0 + j : Nat) = j := by omega
  rw [h0] at hl
  have h1 : 0 ≤ kp.line := by rw [hl]; exact Int.ofNat_nonneg j
  have h2 : kp.line.toNat = j := by rw [hl]; rfl
  exact ⟨h1, by rw [h2]; exact hj, by rw [h2]; exact hget, hwi⟩

theorem calcTarget_facts (text kw : List Char) (kp : KeywordPos) (d : Int)
    (hf : findKeywordPosition text kw = some kp) (hd : 0 ≤ d) :
    ((kp.word_index - d < 0 →
        calcTargetPosition text kp ("left".toList) d = .ok none) ∧
     (0 ≤ kp.word_index - d →
        calcTargetPosition text kp ("left".toList) d =
          .ok (some ⟨kp.line, kp.word_index - d, kp.line_text⟩)) ∧
     (((pySplit kp.line_text).length : Int) ≤ kp.word_index + d + 1 →
        calcTargetPosition text kp ("right".toList) d = .ok none) ∧
     (kp.word_index + d + 1 < ((pySplit kp.line_text).length : Int) →
        calcTargetPosition text kp ("right".toList) d =
          .ok (some ⟨kp.line, kp.word_index + d + 1, kp.line_text⟩)) ∧
     (kp.line - d < 0 →
        calcTargetPosition text kp ("above".toList) d = .ok none) ∧
     (0 ≤ kp.line - d →
        ∃ lt, (splitLines text).get? (kp.line - d).toNat = some lt ∧
          calcTargetPosition text kp ("above".toList) d =
            .ok (some ⟨kp.line - d, 0, lt⟩)) ∧
     (((splitLines text).length : Int) ≤ kp.line + d →
        calcTargetPosition text kp ("below".toList) d = .ok none) ∧
     (kp.line + d < ((splitLines text).length : Int) →
        ∃ lt, (splitLines text).get? (kp.line + d).toNat = some lt ∧
          calcTargetPosition text kp ("below".toList) d =
            .ok (some ⟨kp.line + d, 0, lt⟩))) := by
  rcases findKeywordPosition_bounds text kw kp hf with ⟨hl0, hllt, hlget, hwi0⟩
  have hlget' : (splitLines text).get ⟨kp.line.toNat, hllt⟩ = kp.line_text := by
    rcases List.get?_eq_some.mp hlget with ⟨h, hg⟩
    exact hg
  have hidxline : pyIndex (splitLines text) kp.line = .ok kp.line_text := by
    rw [pyIndex_ok (splitLines text) kp.line hl0 hllt, hlget']
  refine ⟨?_, ?_, ?_, ?_, ?_, ?_, ?_, ?_⟩
  · intro h
    unfold calcTargetPosition
    rw [if_pos rfl, if_pos h]
  · intro h
    unfold calcTargetPosition
    rw [if_pos rfl, if_neg (by omega), hidxline, except_bind_ok]
    rfl
  · intro h
    unfold calcTargetPosition
    rw [if_neg (by decide), if_pos rfl, hidxline, except_bind_ok]
    dsimp only
    rw [if_pos (by omega)]
    rfl
  · intro h
    unfold calcTargetPosition
    rw [if_neg (by decide), if_pos rfl, hidxline, except_bind_ok]
    dsimp only
    rw [if_neg (by omega)]
    rfl
  · intro h
    unfold calcTargetPosition
    rw [if_neg (by decide), if_neg (by decide), if_pos rfl, if_pos h]
  · intro h
    unfold calcTargetPosition
    rw [if_neg (by decide), if_neg (by decide), if_pos rfl, if_neg (by omega)]
    have hlt : (kp.line - d).toNat < (splitLines text).length := by omega
    refine ⟨(splitLines text).get ⟨(kp.line - d).toNat, hlt⟩, ?_, ?_⟩
    · exact List.get?_eq_get hlt
    · rw [pyIndex_ok (splitLines text) (kp.line - d) h hlt, except_bind_ok]
      rfl
  · intro h
    unfold calcTargetPosition
    rw [if_neg (by decide), if_neg (by decide), if_neg (by decide), if_pos rfl,
      if_pos (by omega)]
  · intro h
    unfold calcTargetPosition
    rw [if_neg (by decide), if_neg (by decide), if_neg (by decide), if_pos rfl,
      if_neg (by omega)]
    have h0 : 0 ≤ kp.line + d := by omega
    have hlt : (kp.line + d).toNat < (splitLines text).length := by omega
    refine ⟨(splitLines text).get ⟨(kp.line + d).toNat, hlt⟩, ?_, ?_⟩
    · exact List.get?_eq_get hlt
    · rw [pyIndex_ok (splitLines text) (kp.line + d) h0 hlt, except_bind_ok]
      rfl

/-- C4. For every text, every keyword anchor found in it, and every
non-negative distance: `left` targets anchor word index minus distance and
is absent iff that is negative; `right` targets anchor word index plus
distance plus one and is absent iff that reaches the word count of the
anchor line; `above` targets anchor line minus distance at word 0 and is
absent iff negative; `below` targets anchor line plus distance at word 0
and is absent iff it reaches the line count. -/
theorem calcTargetPosition_spec (text kw : List Char) (kp : KeywordPos) (d : Int)
    (hf : findKeywordPosition text kw = some kp) (hd : 0 ≤ d) :
    ((kp.word_index - d < 0 →
        calcTargetPosition text kp ("left".toList) d = .ok none) ∧
     (0 ≤ kp.word_index - d →
        calcTargetPosition text kp ("left".toList) d =
          .ok (some ⟨kp.line, kp.word_index - d, kp.line_text⟩)) ∧
     (((pySplit kp.line_text).length : Int) ≤ kp.word_index + d + 1 →
        calcTargetPosition text kp ("right".toList) d = .ok none) ∧
     (kp.word_index + d + 1 < ((pySplit kp.line_text).length : Int) →
        calcTargetPosition text kp ("right".toList) d =
          .ok (some ⟨kp.line, kp.word_index + d + 1, kp.line_text⟩)) ∧
     (kp.line - d < 0 →
        calcTargetPosition text kp ("above".toList) d = .ok none) ∧
     (0 ≤ kp.line - d →
        ∃ lt, (splitLines text).get? (kp.line - d).toNat = some lt ∧
          calcTargetPosition text kp ("above".toList) d =
            .ok (some ⟨kp.line - d, 0, lt⟩)) ∧
     (((splitLines text).length : Int) ≤ kp.line + d →
        calcTargetPosition text kp ("below".toList) d = .ok none) ∧
     (kp.line + d < ((splitLines text).length : Int) →
        ∃ lt, (splitLines text).get? (kp.line + d).toNat = some lt ∧
          calcTargetPosition text kp ("below".toList) d =
            .ok (some ⟨kp.line + d, 0, lt⟩))) :=
  calcTarget_facts text kw kp d hf hd

theorem calcTargetPosition_spec_witness :
    calcTargetPosition ("a b\nc".toList) ⟨0, 1, 2, 3, "a b".toList⟩
        ("left".toList) 0 = .ok (some ⟨0, 1, "a b".toList⟩) :=
  (calcTargetPosition_spec ("a b\nc".toList) ("b".toList)
    ⟨0, 1, 2, 3, "a b".toList⟩ 0 (by decide) (by decide)).2.1 (by decide)

theorem extractContent_ok (tp : TargetPos) (ty : List Char)
    (h : 0 ≤ tp.word_index) : ∃ r, extractContent tp ty = .ok r := by
  unfold extractContent
  by_cases hw : pySplit tp.line_text = []
  · exact ⟨none, by rw [if_pos hw]⟩
  · rw [if_neg hw]
    by_cases h1 : ty = "line".toList
    · rw [if_pos h1]
      exact ⟨_, rfl⟩
    · rw [if_neg h1]
      by_cases h2 : ty = "word".toList
      · rw [if_pos h2]
        by_cases h3 : tp.word_index < ((pySplit tp.line_text).length : Int)
        · rw [if_pos h3]
          have hlt : tp.word_index.toNat < (pySplit tp.line_text).length := by omega
          rw [pyIndex_ok _ _ h hlt, except_bind_ok]
          exact ⟨_, rfl⟩
        · rw [if_neg h3]
          exact ⟨none, rfl⟩
      · rw [if_neg h2]
        by_cases h4 : ty = "number".toList
        · rw [if_pos h4]
          exact ⟨_, numberLoop_spec (pySplit tp.line_text) 3 tp.word_index h⟩
        · rw [if_neg h4]
          by_cases h5 : ty = "text".toList
          · rw [if_pos h5]
            by_cases h6 : tp.word_index < ((pySplit tp.line_text).length : Int)
            · rw [if_pos h6]
              exact ⟨_, rfl⟩
            · rw [if_neg h6]
              exact ⟨none, rfl⟩
          · rw [if_neg h5]
            exact ⟨none, rfl⟩

/-- C9. For every text and every pattern with a valid direction, a valid
extract type and a non-negative distance, `extract_pattern` terminates
normally with `ok`: an absent keyword yields the absent marker, and an
out-of-range target position yields the absent marker; no stage raises. -/
theorem extractPattern_total (text : List Char) (p : Pattern)
    (hdir : p.direction = "left".toList ∨ p.direction = "right".toList ∨
      p.direction = "above".toList ∨ p.direction = "below".toList)
    (hty : p.extract_type = "word".toList ∨ p.extract_type = "number".toList ∨
      p.extract_type = "line".toList ∨ p.extract_type = "text".toList)
    (hd : 0 ≤ p.distance) :
    (∃ r, extractPattern text p = .ok r) ∧
    (findKeywordPosition text p.keyword = none → extractPattern text p = .ok none) ∧
    (∀ kp, findKeywordPosition text p.keyword = some kp →
      calcTargetPosition text kp p.direction p.distance = .ok none →
      extractPattern text p = .ok none) := by
  clear hty
  have hmain : ∀ kp, findKeywordPosition text p.keyword = some kp →
      ∃ o, calcTargetPosition text kp p.direction p.distance = .ok o ∧
        (∀ tp, o = some tp → 0 ≤ tp.word_index) := by
    intro kp hkp
    have hfacts := calcTarget_facts text p.keyword kp p.distance hkp hd
    have hb := findKeywordPosition_bounds text p.keyword kp hkp
    rcases hdir with h | h | h | h
    · rw [h]
      by_cases hc : kp.word_index - p.distance < 0
      · exact ⟨none, hfacts.1 hc, by intro tp htp; simp at htp⟩
      · refine ⟨some ⟨kp.line, kp.word_index - p.distance, kp.line_text⟩,
          hfacts.2.1 (by omega), ?_⟩
        intro tp htp
        have : (⟨kp.line, kp.word_index - p.distance, kp.line_text⟩ : TargetPos) = tp := by
          injection htp
        rw [← this]
        dsimp only
        omega
    · rw [h]
      by_cases hc : kp.word_index + p.distance + 1 <
          ((pySplit kp.line_text).length : Int)
      · refine ⟨some ⟨kp.line, kp.word_index + p.distance + 1, kp.line_text⟩,
          hfacts.2.2.2.1 hc, ?_⟩
        intro tp htp
        have : (⟨kp.line, kp.word_index + p.distance + 1, kp.line_text⟩ : TargetPos) = tp := by
          injection htp
        rw [← this]
        dsimp only
        have := hb.2.2.2
        omega
      · exact ⟨none, hfacts.2.2.1 (by omega), by intro tp htp; simp at htp⟩
    · rw [h]
      by_cases hc : kp.line - p.distance < 0
      · exact ⟨none, hfacts.2.2.2.2.1 hc, by intro tp htp; simp at htp⟩
      · rcases hfacts.2.2.2.2.2.1 (by omega) with ⟨lt, _, hcalc⟩
        refine ⟨some ⟨kp.line - p.distance, 0, lt⟩, hcalc, ?_⟩
        intro tp htp
        have : (⟨kp.line - p.distance, 0, lt⟩ : TargetPos) = tp := by
          injection htp
        rw [← this]
    · rw [h]
      by_cases hc : kp.line + p.distance < ((splitLines text).length : Int)
      · rcases hfacts.2.2.2.2.2.2.2 hc with ⟨lt, _, hcalc⟩
        refine ⟨some ⟨kp.line + p.distance, 0, lt⟩, hcalc, ?_⟩
        intro tp htp
        have : (⟨kp.line + p.distance, 0, lt⟩ : TargetPos) = tp := by
          injection htp
        rw [← this]
      · exact ⟨none, hfacts.2.2.2.2.2.2.1 (by omega), by intro tp htp; simp at htp⟩
  refine ⟨?_, ?_, ?_⟩
  · cases hkp : findKeywordPosition text p.keyword with
    | none =>
      refine ⟨none, ?_⟩
      unfold extractPattern
      rw [hkp]
    | some kp =>
      rcases hmain kp hkp with ⟨o, hcalc, ho⟩
      cases o with
      | none =>
        refine ⟨none, ?_⟩
        unfold extractPattern
        rw [hkp]
        dsimp only
        rw [hcalc, except_bind_ok]
        rfl
      | some tp =>
        rcases extractContent_ok tp p.extract_type (ho tp rfl) with ⟨r, hr⟩
        refine ⟨r, ?_⟩
        unfold extractPattern
        rw [hkp]
        dsimp only
        rw [hcalc, except_bind_ok]
        exact hr
  · intro hnone
    unfold extractPattern
    rw [hnone]
  · intro kp hkp hcalc
    unfold extractPattern
    rw [hkp]
    dsimp only
    rw [hcalc, except_bind_ok]
    rfl

theorem extractPattern_total_witness :
    ∃ r, extractPattern ("a b\nc".toList)
        ⟨"b".toList, "right".toList, 0, "word".toList⟩ = .ok r :=
  (extractPattern_total ("a b\nc".toList)
    ⟨"b".toList, "right".toList, 0, "word".toList⟩
    (Or.inr (Or.inl rfl)) (Or.inl rfl) (by decide)).1

/-- C1 (code bug). Evaluating the embedded extractor at the input of the
claim: the two-word keyword `Invoice Number:` anchors at word index 0
(`Invoice`, whose synthetic span contains the match offset 0), so
direction `right` with distance 0 targets word index 1 and extraction
returns `Number:`, not the `12345` required by the spec scenario and by
the repository's own test_right_direction_extraction. -/
theorem invoice_number_extraction_bug :
    extractPattern ("Invoice Number: 12345 ABC".toList)
        ⟨"Invoice Number:".toList, "right".toList, 0, "word".toList⟩ =
      .ok (some ("Number:".toList)) ∧
    (Except.ok (some ("Number:".toList)) : Except PyErr (Option (List Char))) ≠
      .ok (some ("12345".toList)) := by
  exact ⟨by decide, by decide⟩

/-- C5 (corrected). Counterexample to the claim as stated: an encoding
whose distance field is the negative integer -3 is accepted by
parse_pattern (Python int accepts a sign), not rejected. -/
theorem parsePattern_negative_distance_accepted :
    parsePattern ("kw:right:-3:word".toList) =
      .ok ⟨"kw".toList, "right".toList, -3, "word".toList⟩ := by
  decide

/-- C5 (amended). parse_pattern accepts a pattern encoding iff it splits
on `:` into exactly four fields whose direction and extract type are
valid and whose distance field parses as an integer of either sign; every
other encoding is rejected with ValueError before any extraction runs. -/
theorem parsePattern_accepts_iff (s : List Char) :
    ((∃ p, parsePattern s = .ok p) ↔
      (∃ k d i e, splitOnChar ':' s = [k, d, i, e] ∧
        (pyParseInt i).isSome = true ∧
        (d = "left".toList ∨ d = "right".toList ∨ d = "above".toList ∨
          d = "below".toList) ∧
        (e = "word".toList ∨ e = "number".toList ∨ e = "line".toList ∨
          e = "text".toList))) ∧
    (parsePattern s = .error .valueError ∨ ∃ p, parsePattern s = .ok p) := by
  rcases hsp : splitOnChar ':' s with _ | ⟨k, _ | ⟨d, _ | ⟨i, _ | ⟨e, _ | ⟨x, rest⟩⟩⟩⟩⟩
  · have herr : parsePattern s = .error .valueError := by
      unfold parsePattern
      rw [hsp]
    refine ⟨⟨?_, ?_⟩, Or.inl herr⟩
    · rintro ⟨p, hp⟩
      rw [herr] at hp
      exact absurd hp (by simp)
    · rintro ⟨k', d', i', e', hlist, _, _, _⟩
      simp at hlist
  · have herr : parsePattern s = .error .valueError := by
      unfold parsePattern
      rw [hsp]
    refine ⟨⟨?_, ?_⟩, Or.inl herr⟩
    · rintro ⟨p, hp⟩
      rw [herr] at hp
      exact absurd hp (by simp)
    · rintro ⟨k', d', i', e', hlist, _, _, _⟩
      simp at hlist
  · have herr : parsePattern s = .error .valueError := by
      unfold parsePattern
      rw [hsp]
    refine ⟨⟨?_, ?_⟩, Or.inl herr⟩
    · rintro ⟨p, hp⟩
      rw [herr] at hp
      exact absurd hp (by simp)
    · rintro ⟨k', d', i', e', hlist, _, _, _⟩
      simp at hlist
  · have herr : parsePattern s = .error .valueError := by
      unfold parsePattern
      rw [hsp]
    refine ⟨⟨?_, ?_⟩, Or.inl herr⟩
    · rintro ⟨p, hp⟩
      rw [herr] at hp
      exact absurd hp (by simp)
    · rintro ⟨k', d', i', e', hlist, _, _, _⟩
      simp at hlist
  · unfold parsePattern
    rw [hsp]
    dsimp only
    cases hpi : pyParseInt i with
    | none =>
      dsimp only
      refine ⟨⟨?_, ?_⟩, Or.inl rfl⟩
      · rintro ⟨p, hp⟩
        exact absurd hp (by simp)
      · rintro ⟨k', d', i', e', hlist, hsome, _, _⟩
        simp only [List.cons.injEq, and_true] at hlist
        rcases hlist with ⟨hk, hd, hi, he⟩
        rw [← hi, hpi] at hsome
        exact absurd hsome (by simp)
    | some n =>
      dsimp only
      by_cases hdir : d = "left".toList ∨ d = "right".toList ∨
          d = "above".toList ∨ d = "below".toList
      · rw [if_pos hdir]
        by_cases hty : e = "word".toList ∨ e = "number".toList ∨
            e = "line".toList ∨ e = "text".toList
        · rw [if_pos hty]
          refine ⟨⟨?_, ?_⟩, Or.inr ⟨_, rfl⟩⟩
          · intro _
            exact ⟨k, d, i, e, rfl, by rw [hpi]; rfl, hdir, hty⟩
          · intro _
            exact ⟨_, rfl⟩
        · rw [if_neg hty]
          refine ⟨⟨?_, ?_⟩, Or.inl rfl⟩
          · rintro ⟨p, hp⟩
            exact absurd hp (by simp)
          · rintro ⟨k', d', i', e', hlist, _, _, hty'⟩
            simp only [List.cons.injEq, and_true] at hlist
            rcases hlist with ⟨hk, hd, hi, he⟩
            rw [← he] at hty'
            exact absurd hty' hty
      · rw [if_neg hdir]
        refine ⟨⟨?_, ?_⟩, Or.inl rfl⟩
        · rintro ⟨p, hp⟩
          exact absurd hp (by simp)
        · rintro ⟨k', d', i', e', hlist, _, hdir', _⟩
          simp only [List.cons.injEq, and_true] at hlist
          rcases hlist with ⟨hk, hd, hi, he⟩
          rw [← hd] at hdir'
          exact absurd hdir' hdir
  · have herr : parsePattern s = .error .valueError := by
      unfold parsePattern
      rw [hsp]
    refine ⟨⟨?_, ?_⟩, Or.inl herr⟩
    · rintro ⟨p, hp⟩
      rw [herr] at hp
      exact absurd hp (by simp)
    · rintro ⟨k', d', i', e', hlist, _, _, _⟩
      simp at hlist
